import Mathlib

/-!
# boost.fiber `recursive_timed_mutex`: a shallow embedding

The embedding follows `src/recursive_timed_mutex.cpp` function by function.

* A fiber identity (`this_fiber::get_id()`, and the `fiber_context *` returned by
  `scheduler::active()`, which line 59 and line 104 assert to be non-null) is a natural
  number; the calling fiber is an explicit argument. `owner_` is an `Option`: `none` is
  the default-constructed `fiber_context::id()`.
* `BOOST_ASSERT` is a check: a failing assertion ends the call with
  `Checked.assert_failed line`, where `line` is the source line of the assertion.
* The `for (;;)` loops of `lock` and `try_lock_until` suspend the calling fiber in the
  scheduler. One pass of the loop body is one function (`lock`, `try_lock_until`); it
  either returns from the call or suspends, and the scheduler resuming the fiber runs the
  pass again (`Sys.step`). What follows a timed-out `wait_until` is
  `try_lock_until_timed_out`.
* Every function also yields the list of the steps it took on the shared fields, on the
  guard `splk_` and on the scheduler, in program order. `ts` selects the build:
  `true` is `BOOST_FIBERS_THREADSAFE`.
* `Sys` puts the mutex among fibers: each pass of a call is one step of the fiber that
  makes it, and the steps of the fibers interleave in any order. In the single-threaded
  build nothing can happen inside such a step. In the thread-safe build the fibers of
  other threads can act inside two of them: between the release of the guard and
  `set_ready` in `unlock` (lines 166 and 170), and between the return of a timed-out
  `wait_until` and the cleanup under the guard. `Threads` splits `unlock` there.
-/

namespace Fibers

/-- Identity of a fiber. -/
abbrev FiberId := Nat

/-- The `enum class mutex_status` of the mutex classes. -/
inductive mutex_status where
  | locked
  | unlocked
deriving DecidableEq, Repr

/-- Modelled from the spec: the class declaration (`recursive_timed_mutex.hpp`) is not among
the sources, so the member types are taken from section 3 of the spec. `count_` is the
recursion count, an integer that the code only increments, decrements and compares with 0
(that it stays non-negative is part of the data invariant); `waiting_` is the FIFO wait
queue (a `std::deque< fiber_context * >` in the code: `push_back`, `front`, `pop_front`,
`find` and `erase`). -/
structure recursive_timed_mutex where
  state_ : mutex_status
  owner_ : Option FiberId
  count_ : Int
  waiting_ : List FiberId
deriving DecidableEq, Repr

/-- The shared mutable fields. -/
inductive Field where
  | state_
  | owner_
  | count_
  | waiting_
deriving DecidableEq, Repr

/-- One step of an operation, as seen from outside. -/
inductive Event where
  /-- The guard is taken: `std::unique_lock< detail::spinlock > lk( splk_)` or `lk.lock()`. -/
  | acquire_guard
  /-- The guard is given back: `lk.unlock()`, or the destructor of an owning `lk`. -/
  | release_guard
  | read (x : Field)
  | write (x : Field)
  /-- The clock is read: `std::chrono::high_resolution_clock::now()`. -/
  | clock_now
  /-- The call `scheduler::wait`: the fiber is suspended; the scheduler releases the guard. -/
  | suspend
  /-- The call `scheduler::wait_until`: as `suspend`, with a deadline. -/
  | suspend_until (d : Int)
  /-- The call `this_fiber::yield()`. -/
  | yield
  /-- The call `f->set_ready()`: the scheduler marks `f` runnable. -/
  | set_ready (f : FiberId)
deriving DecidableEq, Repr

/-- Result of a call that contains `BOOST_ASSERT`s. -/
inductive Checked (α : Type) where
  | ok (a : α)
  | assert_failed (line : Nat)
deriving DecidableEq, Repr

/-- How one pass of a blocking loop ends. -/
inductive Pass where
  /-- The call returned; `lock()` returns `void`, recorded as `true`. -/
  | returned (b : Bool)
  /-- The fiber is suspended in the scheduler, inside the loop. -/
  | suspended
deriving DecidableEq, Repr

/-- Steps on the guard exist in the thread-safe build only. -/
def guard (ts : Bool) (e : Event) : List Event :=
  if ts then [e] else []

/-- The helper `recursive_timed_mutex::lock_if_unlocked_()` (lines 24-38), called by fiber
`c`. -/
def lock_if_unlocked_ (c : FiberId) (m : recursive_timed_mutex) :
    Checked (Bool × recursive_timed_mutex × List Event) :=
  if m.state_ = mutex_status.unlocked then
    if m.owner_ ≠ none then
      .assert_failed 28
    else
      .ok (true,
        { m with state_ := mutex_status.locked, owner_ := some c, count_ := m.count_ + 1 },
        [Event.read Field.state_, Event.write Field.state_, Event.read Field.owner_,
         Event.write Field.owner_, Event.read Field.count_, Event.write Field.count_])
  else if some c = m.owner_ then
    .ok (true, { m with count_ := m.count_ + 1 },
      [Event.read Field.state_, Event.read Field.owner_, Event.read Field.count_,
       Event.write Field.count_])
  else
    .ok (false, m, [Event.read Field.state_, Event.read Field.owner_])

/-- The constructor (lines 40-48). -/
def make : recursive_timed_mutex :=
  { state_ := mutex_status.unlocked, owner_ := none, count_ := 0, waiting_ := [] }

/-- The destructor (lines 50-54): its three assertions, in order. -/
def destroy (m : recursive_timed_mutex) : Checked Unit :=
  if m.owner_ ≠ none then .assert_failed 51
  else if ¬ (0 = m.count_) then .assert_failed 52
  else if ¬ (m.waiting_.isEmpty = true) then .assert_failed 53
  else .ok ()

/-- One pass of the loop of `recursive_timed_mutex::lock()` (lines 56-81) by fiber `c`:
from the top of the loop body to the `return` or to the suspension in `wait`. -/
def lock (ts : Bool) (c : FiberId) (m : recursive_timed_mutex) :
    Checked (Pass × recursive_timed_mutex × List Event) :=
  match lock_if_unlocked_ c m with
  | .assert_failed l => .assert_failed l
  | .ok (true, m1, t1) =>
      .ok (Pass.returned true, m1,
        guard ts Event.acquire_guard ++ t1 ++ guard ts Event.release_guard)
  | .ok (false, m1, t1) =>
      if c ∈ m1.waiting_ then
        .assert_failed 70
      else
        .ok (Pass.suspended, { m1 with waiting_ := m1.waiting_ ++ [c] },
          guard ts Event.acquire_guard ++ t1
            ++ [Event.read Field.waiting_, Event.write Field.waiting_, Event.suspend])

/-- The call `recursive_timed_mutex::try_lock()` (lines 83-99) by fiber `c`. -/
def try_lock (ts : Bool) (c : FiberId) (m : recursive_timed_mutex) :
    Checked (Bool × recursive_timed_mutex × List Event) :=
  match lock_if_unlocked_ c m with
  | .assert_failed l => .assert_failed l
  | .ok (true, m1, t1) =>
      .ok (true, m1, guard ts Event.acquire_guard ++ t1 ++ guard ts Event.release_guard)
  | .ok (false, m1, t1) =>
      .ok (false, m1,
        guard ts Event.acquire_guard ++ t1 ++ guard ts Event.release_guard ++ [Event.yield])

/-- One pass of the loop of `recursive_timed_mutex::try_lock_until()` (lines 101-146) by
fiber `c` with deadline `timeout_time`, when the clock reads `now`: from the top of the loop
body to a `return` or to the suspension in `wait_until`. -/
def try_lock_until (ts : Bool) (c : FiberId) (timeout_time now : Int)
    (m : recursive_timed_mutex) : Checked (Pass × recursive_timed_mutex × List Event) :=
  if now > timeout_time then
    .ok (Pass.returned false, m,
      guard ts Event.acquire_guard ++ [Event.clock_now] ++ guard ts Event.release_guard)
  else
    match lock_if_unlocked_ c m with
    | .assert_failed l => .assert_failed l
    | .ok (true, m1, t1) =>
        .ok (Pass.returned true, m1,
          guard ts Event.acquire_guard ++ [Event.clock_now] ++ t1
            ++ guard ts Event.release_guard)
    | .ok (false, m1, t1) =>
        if c ∈ m1.waiting_ then
          .assert_failed 119
        else
          .ok (Pass.suspended, { m1 with waiting_ := m1.waiting_ ++ [c] },
            guard ts Event.acquire_guard ++ [Event.clock_now] ++ t1
              ++ [Event.read Field.waiting_, Event.write Field.waiting_,
                  Event.suspend_until timeout_time])

/-- The rest of the loop body of `try_lock_until` (lines 124-133 and 136-143) when
`wait_until` has returned `false` (timed out): `std::find` and `erase` remove the first
entry equal to `c`, if there is one, and the call returns `false`. -/
def try_lock_until_timed_out (ts : Bool) (c : FiberId) (m : recursive_timed_mutex) :
    Bool × recursive_timed_mutex × List Event :=
  if c ∈ m.waiting_ then
    (false, { m with waiting_ := m.waiting_.erase c },
      guard ts Event.acquire_guard ++ [Event.read Field.waiting_, Event.write Field.waiting_]
        ++ guard ts Event.release_guard)
  else
    (false, m,
      guard ts Event.acquire_guard ++ [Event.read Field.waiting_]
        ++ guard ts Event.release_guard)

/-- The call `recursive_timed_mutex::unlock()` (lines 148-173) by fiber `c`. The assertion
of line 161 holds by the type of the queue entries, and the one of line 169 is about the
scheduler's record of the fiber; neither is a case here. -/
def unlock (ts : Bool) (c : FiberId) (m : recursive_timed_mutex) :
    Checked (recursive_timed_mutex × List Event) :=
  if ¬ (mutex_status.locked = m.state_) then
    .assert_failed 150
  else if ¬ (some c = m.owner_) then
    .assert_failed 151
  else
    let n := m.count_ - 1
    if 0 = n then
      match m.waiting_ with
      | [] =>
          .ok ({ state_ := mutex_status.unlocked, owner_ := none, count_ := n,
                 waiting_ := [] },
            [Event.read Field.state_, Event.read Field.owner_] ++ guard ts Event.acquire_guard
              ++ [Event.read Field.count_, Event.write Field.count_, Event.read Field.waiting_,
                  Event.write Field.owner_, Event.write Field.state_]
              ++ guard ts Event.release_guard)
      | f :: rest =>
          .ok ({ state_ := mutex_status.unlocked, owner_ := none, count_ := n,
                 waiting_ := rest },
            [Event.read Field.state_, Event.read Field.owner_] ++ guard ts Event.acquire_guard
              ++ [Event.read Field.count_, Event.write Field.count_, Event.read Field.waiting_,
                  Event.read Field.waiting_, Event.write Field.waiting_,
                  Event.write Field.owner_, Event.write Field.state_]
              ++ guard ts Event.release_guard ++ [Event.set_ready f])
    else
      .ok ({ m with count_ := n },
        [Event.read Field.state_, Event.read Field.owner_] ++ guard ts Event.acquire_guard
          ++ [Event.read Field.count_, Event.write Field.count_]
          ++ guard ts Event.release_guard)

/-- Fiber `c` calls `lock()` `k` times in a row and every call returns at once; `none` when
a call suspends or fails an assertion. -/
def lock_times (ts : Bool) (c : FiberId) :
    Nat → recursive_timed_mutex → Option recursive_timed_mutex
  | 0, m => some m
  | k + 1, m =>
      match lock ts c m with
      | .ok (Pass.returned _, m1, _) => lock_times ts c k m1
      | _ => none

/-- Fiber `c` calls `unlock()` `j` times in a row; the first failing assertion ends it. -/
def unlock_times (ts : Bool) (c : FiberId) :
    Nat → recursive_timed_mutex → Checked recursive_timed_mutex
  | 0, m => .ok m
  | j + 1, m =>
      match unlock ts c m with
      | .ok (m1, _) => unlock_times ts c j m1
      | .assert_failed l => .assert_failed l

/-! ## The fibers around the mutex -/

/-- Where a fiber stands with respect to the blocking calls of the mutex. -/
inductive Pc where
  /-- Not inside a call: the fiber may call an operation. -/
  | running
  /-- Suspended in `wait`, inside `lock()`. -/
  | in_lock
  /-- Suspended in `wait_until`, inside `try_lock_until(d)`. -/
  | in_try_lock_until (d : Int)
deriving DecidableEq, Repr

/-- What the fibers observe of the calls, in the order it happens. -/
inductive Obs where
  /-- A call of `lock()` returned, or `try_lock()` / `try_lock_until()` returned `true`. -/
  | acquired (c : FiberId)
  /-- A call of `try_lock()` or `try_lock_until()` returned `false`. -/
  | refused (c : FiberId)
  /-- The fiber was queued and suspended. -/
  | blocked (c : FiberId)
  /-- A call of `unlock()` returned. -/
  | released (c : FiberId)
  /-- The fiber was marked runnable by `set_ready`. -/
  | marked (f : FiberId)
deriving DecidableEq, Repr

/-- One mutex, the fibers that use it, and the scheduler's view of them. -/
structure Sys where
  mtx : recursive_timed_mutex
  pc : FiberId → Pc
  /-- Marked runnable by `set_ready` and not resumed since. -/
  ready : FiberId → Bool
  clock : Int
  hist : List Obs

/-- The steps of the system: a fiber calls an operation, the scheduler resumes a suspended
fiber (`wake`: `wait` returns, `wait_until` returns `true`; `timeout`: `wait_until` returns
`false`), or the clock moves on. -/
inductive Action where
  | lock (c : FiberId)
  | try_lock (c : FiberId)
  | try_lock_until (c : FiberId) (d : Int)
  | unlock (c : FiberId)
  | wake (c : FiberId)
  | timeout (c : FiberId)
  | tick (t : Int)
deriving DecidableEq, Repr

/-- The constructed mutex, every fiber running, at clock `0`. -/
def Sys.init : Sys :=
  { mtx := make, pc := fun _ => Pc.running, ready := fun _ => false, clock := 0, hist := [] }

/-- The fibers that a trace of `unlock` marks runnable, in order. -/
def marked_runnable : List Event → List FiberId
  | [] => []
  | Event.set_ready f :: es => f :: marked_runnable es
  | _ :: es => marked_runnable es

/-- Modelled from the spec: the scheduler's `set_ready` is not among the sources; by
section 6 of the spec (`mark_runnable`) it puts a suspended fiber back into the runnable
set, which `Sys.ready` records until the fiber is resumed. -/
def mark_all : List FiberId → (FiberId → Bool) → (FiberId → Bool)
  | [], r => r
  | f :: fs, r => mark_all fs (Function.update r f true)

/-- Where a fiber is suspended: in `lock()` (`none`) or in `try_lock_until(d)` (`some d`). -/
def waiting_pc : Option Int → Pc
  | none => Pc.in_lock
  | some d => Pc.in_try_lock_until d

/-- Where fiber `c` stands after one pass of a blocking loop. -/
def pass_pc (d : Option Int) : Pass → Pc
  | Pass.returned _ => Pc.running
  | Pass.suspended => waiting_pc d

/-- What fiber `c` observes of one pass of a blocking loop. -/
def pass_obs (c : FiberId) : Pass → Obs
  | Pass.returned true => Obs.acquired c
  | Pass.returned false => Obs.refused c
  | Pass.suspended => Obs.blocked c

/-- The system after fiber `c` went through one pass of a blocking loop; `d` is the deadline
when the loop is the one of `try_lock_until`. -/
def Sys.after_pass (s : Sys) (c : FiberId) (d : Option Int) :
    Checked (Pass × recursive_timed_mutex × List Event) → Checked Sys
  | .assert_failed l => .assert_failed l
  | .ok (p, m, _) =>
      .ok { s with mtx := m, pc := Function.update s.pc c (pass_pc d p),
                   ready := Function.update s.ready c false,
                   hist := s.hist ++ [pass_obs c p] }

/-- One step of the system. The calls are the functions above, run on the mutex by the
fiber named in the action; a resumed fiber goes through the loop body of its call again.
In the single-threaded build a step is a stretch between two suspension points of a
cooperative fiber, and no other fiber runs inside it. In the thread-safe build a step is
the section of the call under the guard together with what the call does outside the
guard: `unlock` calls `set_ready` after it released the guard (lines 166 and 170), and a
timed-out `wait_until` returns before the guard is taken for the cleanup. There the step
is the run in which no other thread acts in between; `Threads.step` has the two halves of
`unlock` as steps of their own. -/
def Sys.step (ts : Bool) (s : Sys) : Action → Checked Sys
  | .lock c => s.after_pass c none (lock ts c s.mtx)
  | .try_lock c =>
      match try_lock ts c s.mtx with
      | .assert_failed l => .assert_failed l
      | .ok (b, m, _) =>
          .ok { s with mtx := m, hist := s.hist ++ [pass_obs c (Pass.returned b)] }
  | .try_lock_until c d => s.after_pass c (some d) (try_lock_until ts c d s.clock s.mtx)
  | .unlock c =>
      match unlock ts c s.mtx with
      | .assert_failed l => .assert_failed l
      | .ok (m, t) =>
          .ok { s with mtx := m, ready := mark_all (marked_runnable t) s.ready,
                       hist := s.hist ++ Obs.released c :: (marked_runnable t).map Obs.marked }
  | .wake c =>
      match s.pc c with
      | Pc.running => .ok s
      | Pc.in_lock => s.after_pass c none (lock ts c s.mtx)
      | Pc.in_try_lock_until d =>
          s.after_pass c (some d) (try_lock_until ts c d s.clock s.mtx)
  | .timeout c =>
      match s.pc c with
      | Pc.in_try_lock_until _ =>
          .ok { s with mtx := (try_lock_until_timed_out ts c s.mtx).2.1,
                       pc := Function.update s.pc c Pc.running,
                       ready := Function.update s.ready c false,
                       hist := s.hist ++ [Obs.refused c] }
      | _ => .ok s
  | .tick t => .ok { s with clock := t }

/-- Modelled from the spec: the scheduler (`wait`, `wait_until`, `set_ready`) is not among
the sources; section 6 of the spec gives its contract. A fiber calls an operation only
while it is running. A suspended fiber is resumed by `wake` when it was marked runnable
(with `spurious`, at any time), and by `timeout` when it waits with a deadline that the
clock has reached. The clock never goes back. -/
def Sys.enabled (spurious : Bool) (s : Sys) : Action → Bool
  | .lock c => decide (s.pc c = Pc.running)
  | .try_lock c => decide (s.pc c = Pc.running)
  | .try_lock_until c _ => decide (s.pc c = Pc.running)
  | .unlock c => decide (s.pc c = Pc.running)
  | .wake c => decide (s.pc c ≠ Pc.running) && (s.ready c || spurious)
  | .timeout c =>
      match s.pc c with
      | Pc.in_try_lock_until d => decide (d ≤ s.clock)
      | _ => false
  | .tick t => decide (s.clock ≤ t)

/-- Runs a schedule: every action must be enabled and must pass every assertion. -/
def Sys.exec (spurious ts : Bool) : Sys → List Action → Option Sys
  | s, [] => some s
  | s, a :: as =>
      if s.enabled spurious a then
        match s.step ts a with
        | .ok s1 => Sys.exec spurious ts s1 as
        | .assert_failed _ => none
      else none

/-- The states that the system reaches from the constructed state. -/
def Reachable (spurious ts : Bool) (s : Sys) : Prop :=
  ∃ as : List Action, Sys.exec spurious ts Sys.init as = some s

/-- A fiber that blocks on the mutex: by `lock()` (`none`) or by `try_lock_until(d)`
(`some d`). -/
abbrev Waiter := FiberId × Option Int

/-- The call by which a waiter blocks. -/
def block_call : Waiter → Action
  | (f, none) => Action.lock f
  | (f, some d) => Action.try_lock_until f d

/-- The holder `p` releases, the scheduler resumes the first fiber of the list, which
releases in its turn, and so on down the list. -/
def handoff : FiberId → List FiberId → List Action
  | _, [] => []
  | p, f :: fs => Action.unlock p :: Action.wake f :: handoff f fs

/-- What the fibers observe of `handoff` when every resumed fiber gets the mutex. -/
def handoff_obs : FiberId → List FiberId → List Obs
  | _, [] => []
  | p, f :: fs => Obs.released p :: Obs.marked f :: Obs.acquired f :: handoff_obs f fs

/-- The fiber that holds the mutex at the end of `handoff`. -/
def final_holder : FiberId → List FiberId → FiberId
  | p, [] => p
  | _, f :: fs => final_holder f fs

/-- The fibers in the order in which they were queued. -/
def blocked_order : List Obs → List FiberId
  | [] => []
  | Obs.blocked f :: h => f :: blocked_order h
  | _ :: h => blocked_order h

/-- The fibers in the order in which `unlock` marked them runnable. -/
def marked_order : List Obs → List FiberId
  | [] => []
  | Obs.marked f :: h => f :: marked_order h
  | _ :: h => marked_order h

/-- The fibers in the order in which they got the mutex. -/
def acquired_order : List Obs → List FiberId
  | [] => []
  | Obs.acquired f :: h => f :: acquired_order h
  | _ :: h => acquired_order h

/-- Successful acquisitions of `f` that `f` has not yet matched by an `unlock`. -/
def outstanding (h : List Obs) (f : FiberId) : Int :=
  (h.count (Obs.acquired f) : Int) - (h.count (Obs.released f) : Int)

/-- The data invariant of section 3 of the spec. -/
def data_invariant (m : recursive_timed_mutex) : Prop :=
  (m.state_ = mutex_status.locked → m.owner_ ≠ none ∧ 1 ≤ m.count_) ∧
  (m.state_ = mutex_status.unlocked → m.owner_ = none ∧ m.count_ = 0)

/-- The data invariant, with the count of every fiber's outstanding acquisitions: it is
the recursion count for the owner and zero for every other fiber. -/
def core_inv (m : recursive_timed_mutex) (h : List Obs) : Prop :=
  data_invariant m ∧ ∀ f, outstanding h f = if m.owner_ = some f then m.count_ else 0

/-- The queue holds the fibers that were queued and not yet marked runnable, in the order
in which they were queued. -/
def queue_order (s : Sys) : Prop :=
  blocked_order s.hist = marked_order s.hist ++ s.mtx.waiting_

/-- The steps of a run in which no fiber gets the mutex by the fast path and no waiter
times out: a fiber calls `lock`, `try_lock` or `try_lock_until` only while another fiber
holds the mutex, no `wait_until` times out, and a fiber that waits with a deadline is
resumed while the clock has not passed it. -/
def fifo_admissible (s : Sys) : Action → Bool
  | .lock c => decide (s.mtx.state_ = mutex_status.locked ∧ s.mtx.owner_ ≠ some c)
  | .try_lock c => decide (s.mtx.state_ = mutex_status.locked ∧ s.mtx.owner_ ≠ some c)
  | .try_lock_until c _ =>
      decide (s.mtx.state_ = mutex_status.locked ∧ s.mtx.owner_ ≠ some c)
  | .unlock _ => true
  | .wake c =>
      match s.pc c with
      | Pc.in_try_lock_until d => decide (s.clock ≤ d)
      | _ => true
  | .timeout _ => false
  | .tick _ => true

/-- Runs a schedule without fast-path acquisitions, time-outs and spurious wake-ups: every
action must be enabled and admissible and must pass every assertion. -/
def Sys.exec_fifo (ts : Bool) : Sys → List Action → Option Sys
  | s, [] => some s
  | s, a :: as =>
      if s.enabled false a && fifo_admissible s a then
        match s.step ts a with
        | .ok s1 => Sys.exec_fifo ts s1 as
        | .assert_failed _ => none
      else none

/-- The state of the hand-over when `H` was the first holder: the queue is in order and
duplicate-free, the queued fibers are suspended, and the fibers that got the mutex after
`H` are the fibers marked runnable, in order, but for the one, if any, that is marked
runnable and not yet resumed; the mutex is free while that one is pending. -/
def handoff_inv (H : FiberId) (s : Sys) : Prop :=
  queue_order s ∧ s.mtx.waiting_.Nodup ∧ (∀ f ∈ s.mtx.waiting_, s.pc f ≠ Pc.running) ∧
  (((∀ f, s.ready f = false) ∧ acquired_order s.hist = H :: marked_order s.hist) ∨
   (∃ f, s.ready f = true ∧ (∀ g, s.ready g = true → g = f) ∧
     s.mtx.state_ = mutex_status.unlocked ∧ f ∉ s.mtx.waiting_ ∧
     acquired_order s.hist ++ [f] = H :: marked_order s.hist))

/-- Whether the guard is held after a trace, given whether it was held before it. The
scheduler releases the guard when it suspends the fiber. -/
def guard_held : Bool → List Event → Bool
  | g, [] => g
  | _, Event.acquire_guard :: es => guard_held true es
  | _, Event.release_guard :: es => guard_held false es
  | _, Event.suspend :: es => guard_held false es
  | _, Event.suspend_until _ :: es => guard_held false es
  | g, _ :: es => guard_held g es

/-- A trace without its steps on the guard. -/
def strip_guard : List Event → List Event
  | [] => []
  | Event.acquire_guard :: es => strip_guard es
  | Event.release_guard :: es => strip_guard es
  | e :: es => e :: strip_guard es

/-- Applies a function to the result of a call that passed its assertions. -/
def Checked.map {α β : Type} (f : α → β) : Checked α → Checked β
  | .ok a => .ok (f a)
  | .assert_failed l => .assert_failed l

/-- The guard discipline on a trace, given whether the guard is held before it: every read
and every write of a shared field happens with the guard held, and every yield with the
guard not held. The scheduler releases the guard when it suspends the fiber. -/
def disciplined : Bool → List Event → Bool
  | _, [] => true
  | _, Event.acquire_guard :: es => disciplined true es
  | _, Event.release_guard :: es => disciplined false es
  | _, Event.suspend :: es => disciplined false es
  | _, Event.suspend_until _ :: es => disciplined false es
  | g, Event.read _ :: es => g && disciplined g es
  | g, Event.write _ :: es => g && disciplined g es
  | g, Event.yield :: es => !g && disciplined g es
  | g, _ :: es => disciplined g es

/-- The wait queue holds no fiber twice, only suspended fibers, and no fiber that is
marked runnable. -/
def queue_inv (s : Sys) : Prop :=
  s.mtx.waiting_.Nodup ∧ (∀ f ∈ s.mtx.waiting_, s.pc f ≠ Pc.running) ∧
  (∀ f, s.ready f = true → f ∉ s.mtx.waiting_)

/-- No stranded waiter: when the mutex is free and fibers are queued, a fiber that `unlock`
dequeued and marked runnable is still to be resumed. -/
def no_stranded_waiter (s : Sys) : Prop :=
  s.mtx.state_ = mutex_status.unlocked → s.mtx.waiting_ ≠ [] →
    ∃ f ∈ marked_order s.hist, s.ready f = true ∧ s.pc f ≠ Pc.running

/-- The fiber that makes the call, when the action is a call of an operation. -/
def Action.caller : Action → Option FiberId
  | .lock c => some c
  | .try_lock c => some c
  | .try_lock_until c _ => some c
  | .unlock c => some c
  | _ => none

/-- The thread-safe build with fibers on several threads, seen more finely than `Sys`:
`unlock` releases the guard at line 166 and calls `set_ready` at line 170, and between the
two lines the fibers of other threads act on the mutex. `late` lists the calls of `unlock`
that stand between the two lines: the caller, and the fiber that it popped from the queue
and has still to mark runnable. -/
structure Threads where
  sys : Sys
  late : List (FiberId × FiberId)

/-- The steps of `Threads`: a step of `Sys`, or one of the two halves of `unlock`. -/
inductive Move where
  /-- A step of `Sys`. -/
  | act (a : Action)
  /-- Lines 150 to 167 of `unlock`: the two checks and the section under the guard. -/
  | unlock_guarded (c : FiberId)
  /-- Lines 168 to 171 of `unlock`: `set_ready` on the popped fiber, and the return. -/
  | unlock_set_ready (c : FiberId)
deriving DecidableEq, Repr

/-- The constructed mutex, every fiber running, no call of `unlock` under way. -/
def Threads.init : Threads :=
  { sys := Sys.init, late := [] }

/-- One step of the thread-safe build. `unlock_guarded c` runs `unlock` up to the release
of the guard: the mutex is written, and the `set_ready` that ends the trace of `unlock` is
still to come when a fiber was popped; the call has returned when none was.
`unlock_set_ready c` is that `set_ready` and the return of the call. -/
def Threads.step (x : Threads) : Move → Checked Threads
  | .act a =>
      match x.sys.step true a with
      | .assert_failed l => .assert_failed l
      | .ok s1 => .ok { x with sys := s1 }
  | .unlock_guarded c =>
      match unlock true c x.sys.mtx with
      | .assert_failed l => .assert_failed l
      | .ok (m, t) =>
          match marked_runnable t with
          | [] =>
              .ok { x with sys := { x.sys with mtx := m,
                                               hist := x.sys.hist ++ [Obs.released c] } }
          | f :: _ => .ok { sys := { x.sys with mtx := m }, late := x.late ++ [(c, f)] }
  | .unlock_set_ready c =>
      match x.late.lookup c with
      | none => .ok x
      | some f =>
          .ok { sys := { x.sys with ready := mark_all [f] x.sys.ready,
                                    hist := x.sys.hist ++ [Obs.marked f, Obs.released c] },
                late := x.late.erase (c, f) }

/-- Modelled from the spec: the scheduler is not among the sources, and the steps that can
be taken follow `Sys.enabled` without spurious wake-ups. A fiber that stands between the
two halves of `unlock` makes no other call; a running fiber may begin `unlock`; a fiber
that went through the first half of `unlock` goes through the second. -/
def Threads.enabled (x : Threads) : Move → Bool
  | .act a =>
      x.sys.enabled false a &&
        (match a.caller with
         | some c => (x.late.lookup c).isNone
         | none => true)
  | .unlock_guarded c => decide (x.sys.pc c = Pc.running) && (x.late.lookup c).isNone
  | .unlock_set_ready c => (x.late.lookup c).isSome

/-- Runs a schedule of the thread-safe build: every step must be enabled and must pass
every assertion. -/
def Threads.exec : Threads → List Move → Option Threads
  | x, [] => some x
  | x, v :: vs =>
      if x.enabled v then
        match x.step v with
        | .ok x1 => Threads.exec x1 vs
        | .assert_failed _ => none
      else none

/-! ## Facts about the operations -/

/-- What a successful or failed `lock_if_unlocked_` does to a mutex that satisfies the data invariant. -/
theorem lock_if_unlocked_effect {c : FiberId} {m m1 : recursive_timed_mutex} {b : Bool}
    {t : List Event} (h : lock_if_unlocked_ c m = Checked.ok (b, m1, t))
    (hinv : data_invariant m) :
    data_invariant m1 ∧ m1.waiting_ = m.waiting_ ∧
    (b = true → m1.owner_ = some c ∧
      ((m.owner_ = none ∧ m.count_ = 0 ∧ m1.count_ = 1) ∨
       (m.owner_ = some c ∧ m1.count_ = m.count_ + 1))) ∧
    (b = false → m1 = m) := by
  obtain ⟨hl, hu⟩ := hinv
  unfold lock_if_unlocked_ at h
  by_cases hs : m.state_ = mutex_status.unlocked
  · obtain ⟨ho, hc⟩ := hu hs
    simp [hs, ho] at h
    obtain ⟨rfl, rfl, rfl⟩ := h
    simp [data_invariant, ho, hc]
  · have hs1 : m.state_ = mutex_status.locked := by
      cases h1 : m.state_ <;> simp_all
    obtain ⟨ho, hc⟩ := hl hs1
    by_cases hoc : some c = m.owner_
    · simp [hs, hoc] at h
      obtain ⟨rfl, rfl, rfl⟩ := h
      simp [data_invariant, hs1, ← hoc]
      omega
    · simp [hs, hoc] at h
      obtain ⟨rfl, rfl, rfl⟩ := h
      simp [data_invariant, hs1, ho, hc]

theorem lock_if_unlocked_waiting {c : FiberId} {m m1 : recursive_timed_mutex} {b : Bool}
    {t : List Event} (h : lock_if_unlocked_ c m = Checked.ok (b, m1, t)) :
    m1.waiting_ = m.waiting_ := by
  unfold lock_if_unlocked_ at h
  split_ifs at h <;> simp at h <;> obtain ⟨-, rfl, -⟩ := h <;> rfl

theorem lock_if_unlocked_held {c : FiberId} {m m1 : recursive_timed_mutex} {b : Bool}
    {t : List Event} (h : lock_if_unlocked_ c m = Checked.ok (b, m1, t))
    (hs : m.state_ = mutex_status.locked) (ho : m.owner_ ≠ some c) :
    b = false ∧ m1 = m := by
  unfold lock_if_unlocked_ at h
  have ho1 : ¬ (some c = m.owner_) := fun e => ho e.symm
  simp [hs, ho1] at h
  exact ⟨h.1, h.2.1.symm⟩

theorem lock_if_unlocked_free {c : FiberId} {m m1 : recursive_timed_mutex} {b : Bool}
    {t : List Event} (h : lock_if_unlocked_ c m = Checked.ok (b, m1, t))
    (hs : m.state_ = mutex_status.unlocked) :
    b = true ∧ m1.waiting_ = m.waiting_ := by
  unfold lock_if_unlocked_ at h
  simp only [hs, if_true] at h
  split_ifs at h
  simp at h
  obtain ⟨rfl, rfl, -⟩ := h
  exact ⟨rfl, rfl⟩

/-- The outcomes of one pass of `lock`. -/
theorem lock_pass_cases {ts : Bool} {c : FiberId} {m m1 : recursive_timed_mutex} {p : Pass}
    {t : List Event} (h : lock ts c m = Checked.ok (p, m1, t)) :
    (p = Pass.returned true ∧ ∃ t0, lock_if_unlocked_ c m = Checked.ok (true, m1, t0)) ∨
    (p = Pass.suspended ∧ c ∉ m.waiting_ ∧ m1 = { m with waiting_ := m.waiting_ ++ [c] } ∧
      ∃ t0, lock_if_unlocked_ c m = Checked.ok (false, m, t0)) := by
  unfold lock at h
  cases hl : lock_if_unlocked_ c m with
  | assert_failed l => simp [hl] at h
  | ok r =>
      obtain ⟨b, m2, t2⟩ := r
      have hm2 : b = false → m2 = m := by
        intro hb
        subst hb
        unfold lock_if_unlocked_ at hl
        split_ifs at hl <;> simp at hl
        exact hl.1.symm
      cases b with
      | true =>
          simp [hl] at h
          obtain ⟨rfl, rfl, rfl⟩ := h
          exact Or.inl ⟨rfl, _, rfl⟩
      | false =>
          have := hm2 rfl
          subst this
          simp only [hl] at h
          split_ifs at h with hmem
          simp at h
          obtain ⟨rfl, rfl, rfl⟩ := h
          exact Or.inr ⟨rfl, hmem, rfl, _, rfl⟩

/-- The outcomes of one pass of `try_lock_until`. -/
theorem try_lock_until_pass_cases {ts : Bool} {c : FiberId} {d now : Int}
    {m m1 : recursive_timed_mutex} {p : Pass} {t : List Event}
    (h : try_lock_until ts c d now m = Checked.ok (p, m1, t)) :
    (p = Pass.returned false ∧ now > d ∧ m1 = m) ∨
    (p = Pass.returned true ∧ ¬ now > d ∧
      ∃ t0, lock_if_unlocked_ c m = Checked.ok (true, m1, t0)) ∨
    (p = Pass.suspended ∧ ¬ now > d ∧ c ∉ m.waiting_ ∧
      m1 = { m with waiting_ := m.waiting_ ++ [c] } ∧
      ∃ t0, lock_if_unlocked_ c m = Checked.ok (false, m, t0)) := by
  unfold try_lock_until at h
  by_cases hd : now > d
  · simp [hd] at h
    obtain ⟨rfl, rfl, rfl⟩ := h
    exact Or.inl ⟨rfl, hd, rfl⟩
  · simp only [hd, if_false] at h
    cases hl : lock_if_unlocked_ c m with
    | assert_failed l => simp [hl] at h
    | ok r =>
        obtain ⟨b, m2, t2⟩ := r
        have hm2 : b = false → m2 = m := by
          intro hb
          subst hb
          unfold lock_if_unlocked_ at hl
          split_ifs at hl <;> simp at hl
          exact hl.1.symm
        cases b with
        | true =>
            simp [hl] at h
            obtain ⟨rfl, rfl, rfl⟩ := h
            exact Or.inr (Or.inl ⟨rfl, hd, _, rfl⟩)
        | false =>
            have := hm2 rfl
            subst this
            simp only [hl] at h
            split_ifs at h with hmem
            simp at h
            obtain ⟨rfl, rfl, rfl⟩ := h
            exact Or.inr (Or.inr ⟨rfl, hd, hmem, rfl, _, rfl⟩)

/-- The outcome of `try_lock`. -/
theorem try_lock_cases {ts : Bool} {c : FiberId} {m m1 : recursive_timed_mutex} {b : Bool}
    {t : List Event} (h : try_lock ts c m = Checked.ok (b, m1, t)) :
    ∃ t0, lock_if_unlocked_ c m = Checked.ok (b, m1, t0) := by
  unfold try_lock at h
  cases hl : lock_if_unlocked_ c m with
  | assert_failed l => simp [hl] at h
  | ok r =>
      obtain ⟨b2, m2, t2⟩ := r
      cases b2 <;> simp [hl] at h <;> obtain ⟨rfl, rfl, rfl⟩ := h <;> exact ⟨_, rfl⟩

/-- A pass of a blocking loop on a mutex held by another fiber: the caller is queued, or
the deadline has passed and nothing changes. -/
theorem pass_held {ts : Bool} {c : FiberId} {o : Option Int} {now : Int}
    {m m1 : recursive_timed_mutex} {p : Pass} {t : List Event}
    (h : (match o with
          | none => lock ts c m
          | some d => try_lock_until ts c d now m) = Checked.ok (p, m1, t))
    (hs : m.state_ = mutex_status.locked) (ho : m.owner_ ≠ some c) :
    (p = Pass.returned false ∧ m1 = m) ∨
    (p = Pass.suspended ∧ c ∉ m.waiting_ ∧ m1 = { m with waiting_ := m.waiting_ ++ [c] }) := by
  cases o with
  | none =>
      rcases lock_pass_cases h with ⟨-, t0, h0⟩ | ⟨rfl, hc, rfl, -⟩
      · exact absurd (lock_if_unlocked_held h0 hs ho).1 (by simp)
      · exact Or.inr ⟨rfl, hc, rfl⟩
  | some d =>
      rcases try_lock_until_pass_cases h with ⟨rfl, -, rfl⟩ | ⟨-, -, t0, h0⟩ | ⟨rfl, -, hc, rfl, -⟩
      · exact Or.inl ⟨rfl, rfl⟩
      · exact absurd (lock_if_unlocked_held h0 hs ho).1 (by simp)
      · exact Or.inr ⟨rfl, hc, rfl⟩

/-- A pass of a blocking loop on a free mutex, before the deadline: the caller gets the
mutex and the queue is left as it was. -/
theorem pass_free {ts : Bool} {c : FiberId} {o : Option Int} {now : Int}
    {m m1 : recursive_timed_mutex} {p : Pass} {t : List Event}
    (h : (match o with
          | none => lock ts c m
          | some d => try_lock_until ts c d now m) = Checked.ok (p, m1, t))
    (hs : m.state_ = mutex_status.unlocked) (hd : ∀ d, o = some d → now ≤ d) :
    p = Pass.returned true ∧ m1.waiting_ = m.waiting_ := by
  cases o with
  | none =>
      rcases lock_pass_cases h with ⟨rfl, t0, h0⟩ | ⟨-, -, -, t0, h0⟩
      · exact ⟨rfl, (lock_if_unlocked_free h0 hs).2⟩
      · exact absurd (lock_if_unlocked_free h0 hs).1 (by simp)
  | some d =>
      have := hd d rfl
      rcases try_lock_until_pass_cases h with ⟨-, hn, -⟩ | ⟨rfl, -, t0, h0⟩ | ⟨-, -, -, -, t0, h0⟩
      · omega
      · exact ⟨rfl, (lock_if_unlocked_free h0 hs).2⟩
      · exact absurd (lock_if_unlocked_free h0 hs).1 (by simp)

/-- What `unlock` does to a mutex that satisfies the data invariant. -/
theorem unlock_effect {ts : Bool} {c : FiberId} {m m1 : recursive_timed_mutex}
    {t : List Event} (h : unlock ts c m = Checked.ok (m1, t)) (hinv : data_invariant m) :
    m.owner_ = some c ∧ data_invariant m1 ∧ m1.count_ = m.count_ - 1 ∧
    m1.owner_ = (if m.count_ = 1 then none else some c) ∧
    (∀ g, Obs.acquired g ∉ (marked_runnable t).map Obs.marked) ∧
    (∀ g, Obs.released g ∉ (marked_runnable t).map Obs.marked) := by
  obtain ⟨hl, hu⟩ := hinv
  unfold unlock at h
  by_cases hs : mutex_status.locked = m.state_
  · by_cases ho : some c = m.owner_
    · obtain ⟨-, hc⟩ := hl hs.symm
      simp only [hs, ho, not_true, if_false] at h
      by_cases h0 : 0 = m.count_ - 1
      · have h1 : m.count_ = 1 := by omega
        simp only [h0, if_true] at h
        cases hq : m.waiting_ with
        | nil =>
            simp [hq] at h
            obtain ⟨rfl, rfl⟩ := h
            cases ts <;> simp [data_invariant, ← ho, h1, guard, marked_runnable]
        | cons f rest =>
            simp [hq] at h
            obtain ⟨rfl, rfl⟩ := h
            cases ts <;> simp [data_invariant, ← ho, h1, guard, marked_runnable]
      · have h1 : ¬ m.count_ = 1 := by omega
        simp only [h0, if_false] at h
        simp at h
        obtain ⟨rfl, rfl⟩ := h
        cases ts <;> simp [data_invariant, ← ho, h1, ← hs, guard, marked_runnable]
        all_goals omega
    · simp [hs, ho] at h
  · simp [hs] at h

theorem unlock_queue {ts : Bool} {c : FiberId} {m m1 : recursive_timed_mutex}
    {t : List Event} (h : unlock ts c m = Checked.ok (m1, t)) :
    m.waiting_ = marked_runnable t ++ m1.waiting_ := by
  unfold unlock at h
  by_cases hs : mutex_status.locked = m.state_
  · by_cases ho : some c = m.owner_
    · simp only [hs, ho, not_true, if_false] at h
      by_cases h0 : 0 = m.count_ - 1
      · simp only [h0, if_true] at h
        cases hq : m.waiting_ with
        | nil =>
            simp [hq] at h
            obtain ⟨rfl, rfl⟩ := h
            cases ts <;> simp [guard, marked_runnable]
        | cons f rest =>
            simp [hq] at h
            obtain ⟨rfl, rfl⟩ := h
            cases ts <;> simp [guard, marked_runnable]
      · simp only [h0, if_false] at h
        simp at h
        obtain ⟨rfl, rfl⟩ := h
        cases ts <;> simp [guard, marked_runnable]
    · simp [hs, ho] at h
  · simp [hs] at h

theorem unlock_marks {ts : Bool} {c : FiberId} {m m1 : recursive_timed_mutex}
    {t : List Event} (h : unlock ts c m = Checked.ok (m1, t)) :
    m.state_ = mutex_status.locked ∧
    ((marked_runnable t = [] ∧ m1.waiting_ = m.waiting_) ∨
     (∃ f, marked_runnable t = [f] ∧ m.waiting_ = f :: m1.waiting_ ∧
       m1.state_ = mutex_status.unlocked)) := by
  unfold unlock at h
  by_cases hs : mutex_status.locked = m.state_
  · by_cases ho : some c = m.owner_
    · simp only [hs, ho, not_true, if_false] at h
      by_cases h0 : 0 = m.count_ - 1
      · simp only [h0, if_true] at h
        cases hq : m.waiting_ with
        | nil =>
            simp [hq] at h
            obtain ⟨rfl, rfl⟩ := h
            cases ts <;> simp [guard, marked_runnable, ← hs]
        | cons f rest =>
            simp [hq] at h
            obtain ⟨rfl, rfl⟩ := h
            cases ts <;> simp [guard, marked_runnable, ← hs]
      · simp only [h0, if_false] at h
        simp at h
        obtain ⟨rfl, rfl⟩ := h
        cases ts <;> simp [guard, marked_runnable, ← hs]
    · simp [hs, ho] at h
  · simp [hs] at h

theorem lock_times_owner (ts : Bool) (F : FiberId) (q : List FiberId) (k : Nat) :
    ∀ n : Int, lock_times ts F k
        { state_ := mutex_status.locked, owner_ := some F, count_ := n, waiting_ := q }
      = some { state_ := mutex_status.locked, owner_ := some F, count_ := n + k, waiting_ := q } := by
  induction k with
  | zero => intro n; simp [lock_times]
  | succ k ih =>
      intro n
      simp only [lock_times, lock, lock_if_unlocked_]
      simp only [reduceCtorEq, if_false, if_true]
      rw [ih (n + 1)]
      simp; ring

theorem lock_times_make (ts : Bool) (F : FiberId) (k : Nat) :
    lock_times ts F (k + 1) make
      = some { state_ := mutex_status.locked, owner_ := some F, count_ := k + 1, waiting_ := [] } := by
  simp only [lock_times, lock, lock_if_unlocked_, make]
  simp only [ne_eq, not_true, if_false, if_true]
  rw [lock_times_owner]
  simp; ring

theorem unlock_times_below (ts : Bool) (F : FiberId) (q : List FiberId) (j : Nat) :
    ∀ n : Int, (j : Int) < n → unlock_times ts F j
        { state_ := mutex_status.locked, owner_ := some F, count_ := n, waiting_ := q }
      = Checked.ok
        { state_ := mutex_status.locked, owner_ := some F, count_ := n - j, waiting_ := q } := by
  induction j with
  | zero => intro n _; simp [unlock_times]
  | succ j ih =>
      intro n hn
      have h0 : ¬ (0 = n - 1) := by omega
      simp only [unlock_times, unlock]
      simp only [not_true, if_false, h0]
      rw [ih (n - 1) (by omega)]
      simp; ring

theorem unlock_times_succ (ts : Bool) (F : FiberId) (j : Nat) :
    ∀ m : recursive_timed_mutex, unlock_times ts F (j + 1) m =
      match unlock_times ts F j m with
      | Checked.ok m1 =>
          (match unlock ts F m1 with
           | Checked.ok (m2, _) => Checked.ok m2
           | Checked.assert_failed l => Checked.assert_failed l)
      | Checked.assert_failed l => Checked.assert_failed l := by
  induction j with
  | zero =>
      intro m
      cases h : unlock ts F m <;> simp [unlock_times, h]
  | succ j ih =>
      intro m
      rw [unlock_times]
      cases h : unlock ts F m with
      | ok a =>
          obtain ⟨m1, t⟩ := a
          simp only []
          rw [ih m1]
          conv_rhs => rw [unlock_times, h]
      | assert_failed l =>
          simp only []
          conv_rhs => rw [unlock_times, h]

/-! ## Facts about the system of fibers -/

theorem after_pass_ok {s s1 : Sys} {c : FiberId} {d : Option Int}
    {r : Checked (Pass × recursive_timed_mutex × List Event)}
    (h : s.after_pass c d r = Checked.ok s1) :
    ∃ p m1 t, r = Checked.ok (p, m1, t) ∧ s1.mtx = m1 ∧ s1.hist = s.hist ++ [pass_obs c p] ∧
      s1.clock = s.clock ∧ s1.pc = Function.update s.pc c (pass_pc d p) ∧
      s1.ready = Function.update s.ready c false := by
  cases r with
  | assert_failed l => simp [Sys.after_pass] at h
  | ok a =>
      obtain ⟨p, m1, t⟩ := a
      simp [Sys.after_pass] at h
      subst h
      exact ⟨p, m1, t, rfl, rfl, rfl, rfl, rfl, rfl⟩

theorem exec_cons_ok {spurious ts : Bool} {s s1 : Sys} {a : Action} (as : List Action)
    (hen : s.enabled spurious a = true) (hst : s.step ts a = Checked.ok s1) :
    Sys.exec spurious ts s (a :: as) = Sys.exec spurious ts s1 as := by
  simp [Sys.exec, hen, hst]

theorem outstanding_append_acquired (h : List Obs) (c f : FiberId) :
    outstanding (h ++ [Obs.acquired c]) f = outstanding h f + (if f = c then 1 else 0) := by
  unfold outstanding
  by_cases hfc : f = c
  · subst hfc
    simp [List.count_append]
    ring
  · have : ¬ c = f := fun h => hfc h.symm
    simp [List.count_append, hfc, List.count_singleton, this]

theorem outstanding_append_other (h : List Obs) (o : Obs) (f : FiberId)
    (h1 : o ≠ Obs.acquired f) (h2 : o ≠ Obs.released f) :
    outstanding (h ++ [o]) f = outstanding h f := by
  unfold outstanding
  simp [List.count_append, List.count_singleton, h1, h2]

theorem outstanding_append_released (h l : List Obs) (c f : FiberId)
    (h1 : Obs.acquired f ∉ l) (h2 : Obs.released f ∉ l) :
    outstanding (h ++ Obs.released c :: l) f = outstanding h f - (if f = c then 1 else 0) := by
  unfold outstanding
  by_cases hfc : f = c
  · subst hfc
    simp [List.count_append, List.count_cons, List.count_eq_zero_of_not_mem h1,
      List.count_eq_zero_of_not_mem h2]
    ring
  · have : ¬ c = f := fun h => hfc h.symm
    simp [List.count_append, List.count_cons, List.count_eq_zero_of_not_mem h1,
      List.count_eq_zero_of_not_mem h2, hfc, this]

theorem core_inv_attempt {c : FiberId} {m m1 : recursive_timed_mutex} {b : Bool}
    {t : List Event} {h : List Obs} (hl : lock_if_unlocked_ c m = Checked.ok (b, m1, t))
    (hinv : core_inv m h) :
    core_inv m1 (h ++ [pass_obs c (Pass.returned b)]) := by
  obtain ⟨hd, hh⟩ := hinv
  obtain ⟨hd1, -, ht, hf⟩ := lock_if_unlocked_effect hl hd
  refine ⟨hd1, fun f => ?_⟩
  cases b with
  | true =>
      obtain ⟨ho1, hcase⟩ := ht rfl
      simp only [pass_obs]
      rw [outstanding_append_acquired, hh f, ho1]
      rcases hcase with ⟨ho, hc, hc1⟩ | ⟨ho, hc1⟩
      · by_cases hfc : f = c
        · subst hfc; simp [ho, hc1]
        · have : ¬ c = f := fun h => hfc h.symm
          simp [ho, hfc, this]
      · by_cases hfc : f = c
        · subst hfc; simp [ho, hc1]
        · have : ¬ c = f := fun h => hfc h.symm
          simp [ho, hfc, this]
  | false =>
      have := hf rfl
      subst this
      rw [outstanding_append_other _ _ _ (by simp [pass_obs]) (by simp [pass_obs])]
      exact hh f

theorem core_inv_queue {m : recursive_timed_mutex} {h : List Obs} (q : List FiberId)
    (o : Obs) (ho : ∀ f, o ≠ Obs.acquired f ∧ o ≠ Obs.released f) (hinv : core_inv m h) :
    core_inv { m with waiting_ := q } (h ++ [o]) := by
  obtain ⟨hd, hh⟩ := hinv
  refine ⟨hd, fun f => ?_⟩
  rw [outstanding_append_other _ _ _ (ho f).1 (ho f).2]
  exact hh f

theorem core_inv_unlock {ts : Bool} {c : FiberId} {m m1 : recursive_timed_mutex}
    {t : List Event} {h : List Obs} (hu : unlock ts c m = Checked.ok (m1, t))
    (hinv : core_inv m h) :
    core_inv m1 (h ++ Obs.released c :: (marked_runnable t).map Obs.marked) := by
  obtain ⟨hd, hh⟩ := hinv
  obtain ⟨ho, hd1, hc1, ho1, ha, hr⟩ := unlock_effect hu hd
  refine ⟨hd1, fun f => ?_⟩
  rw [outstanding_append_released _ _ _ _ (ha f) (hr f), hh f, ho, ho1, hc1]
  by_cases hfc : f = c
  · subst hfc
    by_cases h1 : m.count_ = 1
    · simp [h1]
    · simp [h1]
  · have : ¬ c = f := fun h => hfc h.symm
    by_cases h1 : m.count_ = 1 <;> simp [h1, hfc, this]

theorem core_inv_timed_out (ts : Bool) (c : FiberId) {m : recursive_timed_mutex}
    {h : List Obs} (hinv : core_inv m h) :
    core_inv (try_lock_until_timed_out ts c m).2.1 (h ++ [Obs.refused c]) := by
  unfold try_lock_until_timed_out
  split_ifs
  · exact core_inv_queue _ _ (by simp) hinv
  · exact core_inv_queue m.waiting_ _ (by simp) hinv

theorem core_inv_lock_pass {ts : Bool} {c : FiberId} {m m1 : recursive_timed_mutex}
    {p : Pass} {t : List Event} {h : List Obs} (hinv : core_inv m h)
    (hl : lock ts c m = Checked.ok (p, m1, t)) : core_inv m1 (h ++ [pass_obs c p]) := by
  rcases lock_pass_cases hl with ⟨rfl, t0, h0⟩ | ⟨rfl, -, rfl, -⟩
  · exact core_inv_attempt h0 hinv
  · exact core_inv_queue _ _ (by simp [pass_obs]) hinv

theorem core_inv_try_lock_until_pass {ts : Bool} {c : FiberId} {d now : Int}
    {m m1 : recursive_timed_mutex} {p : Pass} {t : List Event} {h : List Obs}
    (hinv : core_inv m h) (hl : try_lock_until ts c d now m = Checked.ok (p, m1, t)) :
    core_inv m1 (h ++ [pass_obs c p]) := by
  rcases try_lock_until_pass_cases hl with ⟨rfl, -, rfl⟩ | ⟨rfl, -, t0, h0⟩ | ⟨rfl, -, -, rfl, -⟩
  · exact core_inv_queue m1.waiting_ _ (by simp [pass_obs]) hinv
  · exact core_inv_attempt h0 hinv
  · exact core_inv_queue _ _ (by simp [pass_obs]) hinv

theorem core_inv_step {ts : Bool} {s s1 : Sys} {a : Action}
    (h : s.step ts a = Checked.ok s1) (hinv : core_inv s.mtx s.hist) :
    core_inv s1.mtx s1.hist := by
  cases a with
  | lock c =>
      simp only [Sys.step] at h
      obtain ⟨p, m1, t, hr, hm, hh, -⟩ := after_pass_ok h
      rw [hm, hh]
      exact core_inv_lock_pass hinv hr
  | try_lock c =>
      simp only [Sys.step] at h
      cases hr : try_lock ts c s.mtx with
      | assert_failed l => simp [hr] at h
      | ok r =>
          obtain ⟨b, m1, t⟩ := r
          simp [hr] at h
          subst h
          obtain ⟨t0, h0⟩ := try_lock_cases hr
          exact core_inv_attempt h0 hinv
  | try_lock_until c d =>
      simp only [Sys.step] at h
      obtain ⟨p, m1, t, hr, hm, hh, -⟩ := after_pass_ok h
      rw [hm, hh]
      exact core_inv_try_lock_until_pass hinv hr
  | unlock c =>
      simp only [Sys.step] at h
      cases hr : unlock ts c s.mtx with
      | assert_failed l => simp [hr] at h
      | ok r =>
          obtain ⟨m1, t⟩ := r
          simp [hr] at h
          subst h
          exact core_inv_unlock hr hinv
  | wake c =>
      simp only [Sys.step] at h
      cases hpc : s.pc c with
      | running => simp [hpc] at h; subst h; exact hinv
      | in_lock =>
          simp only [hpc] at h
          obtain ⟨p, m1, t, hr, hm, hh, -⟩ := after_pass_ok h
          rw [hm, hh]
          exact core_inv_lock_pass hinv hr
      | in_try_lock_until d =>
          simp only [hpc] at h
          obtain ⟨p, m1, t, hr, hm, hh, -⟩ := after_pass_ok h
          rw [hm, hh]
          exact core_inv_try_lock_until_pass hinv hr
  | timeout c =>
      simp only [Sys.step] at h
      cases hpc : s.pc c with
      | running => simp [hpc] at h; subst h; exact hinv
      | in_lock => simp [hpc] at h; subst h; exact hinv
      | in_try_lock_until d =>
          simp [hpc] at h
          subst h
          exact core_inv_timed_out ts c hinv
  | tick t =>
      simp [Sys.step] at h
      subst h
      exact hinv

theorem core_inv_exec {spurious ts : Bool} (as : List Action) :
    ∀ s s1 : Sys, Sys.exec spurious ts s as = some s1 → core_inv s.mtx s.hist →
      core_inv s1.mtx s1.hist := by
  induction as with
  | nil =>
      intro s s1 h hinv
      simp [Sys.exec] at h
      subst h
      exact hinv
  | cons a as ih =>
      intro s s1 h hinv
      simp only [Sys.exec] at h
      split_ifs at h with hen
      cases hst : s.step ts a with
      | assert_failed l => simp [hst] at h
      | ok s2 =>
          simp only [hst] at h
          exact ih s2 s1 h (core_inv_step hst hinv)

theorem core_inv_init : core_inv Sys.init.mtx Sys.init.hist := by
  refine ⟨by simp [data_invariant, Sys.init, make], fun f => ?_⟩
  simp [outstanding, Sys.init, make]

theorem blocked_order_append (h l : List Obs) :
    blocked_order (h ++ l) = blocked_order h ++ blocked_order l := by
  induction h with
  | nil => rfl
  | cons o h ih => cases o <;> simp [blocked_order, ih]

theorem marked_order_append (h l : List Obs) :
    marked_order (h ++ l) = marked_order h ++ marked_order l := by
  induction h with
  | nil => rfl
  | cons o h ih => cases o <;> simp [marked_order, ih]

theorem acquired_order_append (h l : List Obs) :
    acquired_order (h ++ l) = acquired_order h ++ acquired_order l := by
  induction h with
  | nil => rfl
  | cons o h ih => cases o <;> simp [acquired_order, ih]

theorem marked_order_map_marked (fs : List FiberId) :
    marked_order (fs.map Obs.marked) = fs := by
  induction fs with
  | nil => rfl
  | cons f fs ih => simp [marked_order, ih]

theorem blocked_order_map_marked (fs : List FiberId) :
    blocked_order (fs.map Obs.marked) = [] := by
  induction fs with
  | nil => rfl
  | cons f fs ih => simp [blocked_order, ih]

theorem marked_order_handoff_obs (fs : List FiberId) :
    ∀ p, marked_order (handoff_obs p fs) = fs := by
  induction fs with
  | nil => intro p; rfl
  | cons f fs ih => intro p; simp [handoff_obs, marked_order, ih]

theorem acquired_order_handoff_obs (fs : List FiberId) :
    ∀ p, acquired_order (handoff_obs p fs) = fs := by
  induction fs with
  | nil => intro p; rfl
  | cons f fs ih => intro p; simp [handoff_obs, acquired_order, ih]

theorem marked_order_map_blocked (ws : List Waiter) :
    marked_order (ws.map (fun w => Obs.blocked w.1)) = [] := by
  induction ws with
  | nil => rfl
  | cons w ws ih => simp [marked_order, ih]

theorem acquired_order_map_blocked (ws : List Waiter) :
    acquired_order (ws.map (fun w => Obs.blocked w.1)) = [] := by
  induction ws with
  | nil => rfl
  | cons w ws ih => simp [acquired_order, ih]

theorem queue_order_lock_pass {ts : Bool} {c : FiberId} {m m1 : recursive_timed_mutex}
    {p : Pass} {t : List Event} {h : List Obs}
    (hinv : blocked_order h = marked_order h ++ m.waiting_)
    (hl : lock ts c m = Checked.ok (p, m1, t)) :
    blocked_order (h ++ [pass_obs c p]) = marked_order (h ++ [pass_obs c p]) ++ m1.waiting_ := by
  rw [blocked_order_append, marked_order_append, hinv]
  rcases lock_pass_cases hl with ⟨rfl, t0, h0⟩ | ⟨rfl, -, rfl, -⟩
  · simp [pass_obs, blocked_order, marked_order, lock_if_unlocked_waiting h0]
  · simp [pass_obs, blocked_order, marked_order]

theorem queue_order_try_lock_until_pass {ts : Bool} {c : FiberId} {d now : Int}
    {m m1 : recursive_timed_mutex} {p : Pass} {t : List Event} {h : List Obs}
    (hinv : blocked_order h = marked_order h ++ m.waiting_)
    (hl : try_lock_until ts c d now m = Checked.ok (p, m1, t)) :
    blocked_order (h ++ [pass_obs c p]) = marked_order (h ++ [pass_obs c p]) ++ m1.waiting_ := by
  rw [blocked_order_append, marked_order_append, hinv]
  rcases try_lock_until_pass_cases hl with ⟨rfl, -, rfl⟩ | ⟨rfl, -, t0, h0⟩ | ⟨rfl, -, -, rfl, -⟩
  · simp [pass_obs, blocked_order, marked_order]
  · simp [pass_obs, blocked_order, marked_order, lock_if_unlocked_waiting h0]
  · simp [pass_obs, blocked_order, marked_order]

theorem queue_order_step {ts : Bool} {s s1 : Sys} {a : Action}
    (hnt : ∀ c, a ≠ Action.timeout c)
    (h : s.step ts a = Checked.ok s1) (hinv : queue_order s) : queue_order s1 := by
  unfold queue_order at hinv ⊢
  cases a with
  | lock c =>
      simp only [Sys.step] at h
      obtain ⟨p, m1, t, hr, hm, hh, -⟩ := after_pass_ok h
      rw [hm, hh]
      exact queue_order_lock_pass hinv hr
  | try_lock c =>
      simp only [Sys.step] at h
      cases hr : try_lock ts c s.mtx with
      | assert_failed l => simp [hr] at h
      | ok r =>
          obtain ⟨b, m1, t⟩ := r
          simp [hr] at h
          subst h
          obtain ⟨t0, h0⟩ := try_lock_cases hr
          simp only [blocked_order_append, marked_order_append, hinv]
          cases b <;> simp [pass_obs, blocked_order, marked_order, lock_if_unlocked_waiting h0]
  | try_lock_until c d =>
      simp only [Sys.step] at h
      obtain ⟨p, m1, t, hr, hm, hh, -⟩ := after_pass_ok h
      rw [hm, hh]
      exact queue_order_try_lock_until_pass hinv hr
  | unlock c =>
      simp only [Sys.step] at h
      cases hr : unlock ts c s.mtx with
      | assert_failed l => simp [hr] at h
      | ok r =>
          obtain ⟨m1, t⟩ := r
          simp [hr] at h
          subst h
          have hq := unlock_queue hr
          have e : s.hist ++ Obs.released c :: (marked_runnable t).map Obs.marked
              = s.hist ++ [Obs.released c] ++ (marked_runnable t).map Obs.marked := by simp
          simp only [e, blocked_order_append, marked_order_append, hinv, hq,
            marked_order_map_marked, blocked_order_map_marked]
          simp [blocked_order, marked_order]
  | wake c =>
      simp only [Sys.step] at h
      cases hpc : s.pc c with
      | running => simp [hpc] at h; subst h; exact hinv
      | in_lock =>
          simp only [hpc] at h
          obtain ⟨p, m1, t, hr, hm, hh, -⟩ := after_pass_ok h
          rw [hm, hh]
          exact queue_order_lock_pass hinv hr
      | in_try_lock_until d =>
          simp only [hpc] at h
          obtain ⟨p, m1, t, hr, hm, hh, -⟩ := after_pass_ok h
          rw [hm, hh]
          exact queue_order_try_lock_until_pass hinv hr
  | timeout c => exact absurd rfl (hnt c)
  | tick t =>
      simp [Sys.step] at h
      subst h
      exact hinv

theorem queue_order_exec {spurious ts : Bool} (as : List Action) :
    ∀ s s1 : Sys, (∀ c, Action.timeout c ∉ as) → Sys.exec spurious ts s as = some s1 →
      queue_order s → queue_order s1 := by
  induction as with
  | nil =>
      intro s s1 _ h hinv
      simp [Sys.exec] at h
      subst h
      exact hinv
  | cons a as ih =>
      intro s s1 hnt h hinv
      simp only [Sys.exec] at h
      split_ifs at h with hen
      cases hst : s.step ts a with
      | assert_failed l => simp [hst] at h
      | ok s2 =>
          simp only [hst] at h
          refine ih s2 s1 (fun c hc => hnt c (List.mem_cons_of_mem _ hc)) h
            (queue_order_step (fun c hc => hnt c (hc ▸ List.mem_cons_self _ _)) hst hinv)

theorem step_block (ts : Bool) (s : Sys) (H : FiberId) (n : Int) (q : List FiberId)
    (w : Waiter) (hm : s.mtx = ⟨mutex_status.locked, some H, n, q⟩)
    (hH : H ≠ w.1) (hq : w.1 ∉ q) (hd : ∀ d, w.2 = some d → s.clock ≤ d) :
    s.step ts (block_call w) = Checked.ok
      { s with mtx := ⟨mutex_status.locked, some H, n, q ++ [w.1]⟩,
               pc := Function.update s.pc w.1 (waiting_pc w.2),
               ready := Function.update s.ready w.1 false,
               hist := s.hist ++ [Obs.blocked w.1] } := by
  obtain ⟨f, o⟩ := w
  have h1 : ¬ (f = H) := fun h => hH h.symm
  cases o with
  | none =>
      have hq1 : f ∉ q := hq
      simp [block_call, Sys.step, lock, lock_if_unlocked_, hm, h1, hq1, Sys.after_pass,
        waiting_pc, pass_pc, pass_obs]
  | some d =>
      have hq1 : f ∉ q := hq
      have h2 : ¬ (d < s.clock) := by
        have := hd d rfl
        omega
      simp [block_call, Sys.step, try_lock_until, lock_if_unlocked_, hm, h1, h2, hq1,
        Sys.after_pass, waiting_pc, pass_pc, pass_obs]

theorem step_unlock_full (ts : Bool) (s : Sys) (p f : FiberId) (rest : List FiberId)
    (hm : s.mtx = ⟨mutex_status.locked, some p, 1, f :: rest⟩) :
    s.step ts (Action.unlock p) = Checked.ok
      { s with mtx := ⟨mutex_status.unlocked, none, 0, rest⟩,
               ready := Function.update s.ready f true,
               hist := s.hist ++ [Obs.released p, Obs.marked f] } := by
  cases ts <;>
    simp [Sys.step, unlock, hm, guard, marked_runnable, mark_all]

theorem step_wake_acquires (ts : Bool) (s : Sys) (f : FiberId) (o : Option Int)
    (rest : List FiberId)
    (hm : s.mtx = ⟨mutex_status.unlocked, none, 0, rest⟩)
    (hpc : s.pc f = waiting_pc o) (hd : ∀ d, o = some d → s.clock ≤ d) :
    s.step ts (Action.wake f) = Checked.ok
      { s with mtx := ⟨mutex_status.locked, some f, 1, rest⟩,
               pc := Function.update s.pc f Pc.running,
               ready := Function.update s.ready f false,
               hist := s.hist ++ [Obs.acquired f] } := by
  cases o with
  | none =>
      simp [Sys.step, hpc, waiting_pc, lock, lock_if_unlocked_, hm, Sys.after_pass, pass_pc,
        pass_obs]
  | some d =>
      have h2 : ¬ (d < s.clock) := by
        have := hd d rfl
        omega
      simp [Sys.step, hpc, waiting_pc, try_lock_until, lock_if_unlocked_, hm, h2,
        Sys.after_pass, pass_pc, pass_obs]

/-- The waiters block one after the other on a mutex held by `H`. -/
theorem block_phase (spurious ts : Bool) (H : FiberId) (n : Int) (ws : List Waiter) :
    ∀ (s : Sys) (q : List FiberId),
      s.mtx = ⟨mutex_status.locked, some H, n, q⟩ →
      H ∉ ws.map Prod.fst → (ws.map Prod.fst).Nodup →
      (∀ w ∈ ws, w.1 ∉ q) → (∀ w ∈ ws, s.pc w.1 = Pc.running) →
      (∀ w ∈ ws, ∀ d, w.2 = some d → s.clock ≤ d) →
      ∃ s1, Sys.exec spurious ts s (ws.map block_call) = some s1 ∧
        s1.mtx = ⟨mutex_status.locked, some H, n, q ++ ws.map Prod.fst⟩ ∧
        s1.hist = s.hist ++ ws.map (fun w => Obs.blocked w.1) ∧
        s1.clock = s.clock ∧
        (∀ w ∈ ws, s1.pc w.1 = waiting_pc w.2) ∧
        (∀ g, g ∉ ws.map Prod.fst → s1.pc g = s.pc g) := by
  induction ws with
  | nil =>
      intro s q hm _ _ _ _ _
      exact ⟨s, by simp [Sys.exec], by simp [hm], by simp, rfl, by simp, by simp⟩
  | cons w ws ih =>
      intro s q hm hH hnd hq hrun hdl
      simp only [List.map_cons, List.mem_cons, not_or, List.nodup_cons] at hH hnd
      have hstep := step_block ts s H n q w hm hH.1 (hq w (List.mem_cons_self _ _))
        (hdl w (List.mem_cons_self _ _))
      have hen : s.enabled spurious (block_call w) = true := by
        have := hrun w (List.mem_cons_self _ _)
        obtain ⟨f, o⟩ := w
        cases o <;> simpa [block_call, Sys.enabled] using this
      have hne : ∀ w1 ∈ ws, w1.1 ≠ w.1 := by
        intro w1 hw1 heq
        exact hnd.1 (heq ▸ List.mem_map_of_mem Prod.fst hw1)
      obtain ⟨s1, hex, hm1, hh1, hc1, hpc1, hother⟩ :=
        ih { s with mtx := ⟨mutex_status.locked, some H, n, q ++ [w.1]⟩,
                    pc := Function.update s.pc w.1 (waiting_pc w.2),
                    ready := Function.update s.ready w.1 false,
                    hist := s.hist ++ [Obs.blocked w.1] }
          (q ++ [w.1]) rfl hH.2 hnd.2
          (by
            intro w1 hw1
            simp only [List.mem_append, List.mem_singleton, not_or]
            exact ⟨hq w1 (List.mem_cons_of_mem _ hw1), hne w1 hw1⟩)
          (by
            intro w1 hw1
            simp only [Function.update_noteq (hne w1 hw1)]
            exact hrun w1 (List.mem_cons_of_mem _ hw1))
          (by
            intro w1 hw1 d hd
            exact hdl w1 (List.mem_cons_of_mem _ hw1) d hd)
      refine ⟨s1, ?_, ?_, ?_, ?_, ?_, ?_⟩
      · rw [List.map_cons, exec_cons_ok _ hen hstep]
        exact hex
      · simp [hm1]
      · simp [hh1]
      · simp [hc1]
      · intro w1 hw1
        rcases List.mem_cons.mp hw1 with rfl | hw1
        · rw [hother _ hnd.1]
          simp
        · exact hpc1 w1 hw1
      · intro g hg
        simp only [List.map_cons, List.mem_cons, not_or] at hg
        rw [hother g hg.2]
        simp [Function.update_noteq hg.1]

/-- The mutex goes down the queue: each release marks the head of the queue, which gets
the mutex when it is resumed. -/
theorem handoff_phase (ts : Bool) (ws : List Waiter) :
    ∀ (s : Sys) (p : FiberId),
      s.mtx = ⟨mutex_status.locked, some p, 1, ws.map Prod.fst⟩ →
      s.pc p = Pc.running → p ∉ ws.map Prod.fst → (ws.map Prod.fst).Nodup →
      (∀ w ∈ ws, s.pc w.1 = waiting_pc w.2) →
      (∀ w ∈ ws, ∀ d, w.2 = some d → s.clock ≤ d) →
      ∃ s2, Sys.exec false ts s (handoff p (ws.map Prod.fst)) = some s2 ∧
        s2.hist = s.hist ++ handoff_obs p (ws.map Prod.fst) ∧
        s2.mtx = ⟨mutex_status.locked, some (final_holder p (ws.map Prod.fst)), 1, []⟩ := by
  induction ws with
  | nil =>
      intro s p hm _ _ _ _ _
      exact ⟨s, by simp [handoff, Sys.exec], by simp [handoff_obs], by simpa [final_holder] using hm⟩
  | cons w ws ih =>
      intro s p hm hp hpn hnd hpc hdl
      simp only [List.map_cons, List.mem_cons, not_or, List.nodup_cons] at hpn hnd hm
      have hne : ∀ w1 ∈ ws, w1.1 ≠ w.1 := by
        intro w1 hw1 heq
        exact hnd.1 (heq ▸ List.mem_map_of_mem Prod.fst hw1)
      have hst1 := step_unlock_full ts s p w.1 (ws.map Prod.fst) hm
      have hen1 : s.enabled false (Action.unlock p) = true := by
        simp [Sys.enabled, hp]
      have hwpc : s.pc w.1 = waiting_pc w.2 := hpc w (List.mem_cons_self _ _)
      have hst2 := step_wake_acquires ts
        { s with mtx := ⟨mutex_status.unlocked, none, 0, ws.map Prod.fst⟩,
                 ready := Function.update s.ready w.1 true,
                 hist := s.hist ++ [Obs.released p, Obs.marked w.1] }
        w.1 w.2 (ws.map Prod.fst) rfl hwpc (hdl w (List.mem_cons_self _ _))
      have hen2 : Sys.enabled false
          { s with mtx := ⟨mutex_status.unlocked, none, 0, ws.map Prod.fst⟩,
                   ready := Function.update s.ready w.1 true,
                   hist := s.hist ++ [Obs.released p, Obs.marked w.1] }
          (Action.wake w.1) = true := by
        have : s.pc w.1 ≠ Pc.running := by
          rw [hwpc]
          cases w.2 <;> simp [waiting_pc]
        simp [Sys.enabled, this]
      obtain ⟨s2, hex, hh2, hm2⟩ := ih
        { s with mtx := ⟨mutex_status.locked, some w.1, 1, ws.map Prod.fst⟩,
                 pc := Function.update s.pc w.1 Pc.running,
                 ready := Function.update (Function.update s.ready w.1 true) w.1 false,
                 hist := s.hist ++ [Obs.released p, Obs.marked w.1] ++ [Obs.acquired w.1] }
        w.1 rfl (by simp) hnd.1 hnd.2
        (by
          intro w1 hw1
          simp only [Function.update_noteq (hne w1 hw1)]
          exact hpc w1 (List.mem_cons_of_mem _ hw1))
        (by
          intro w1 hw1 d hd
          exact hdl w1 (List.mem_cons_of_mem _ hw1) d hd)
      refine ⟨s2, ?_, ?_, ?_⟩
      · rw [List.map_cons, handoff, exec_cons_ok _ hen1 hst1, exec_cons_ok _ hen2 hst2]
        exact hex
      · simp [hh2, handoff_obs]
      · simp [hm2, final_holder]

theorem acquired_order_pass_obs (c : FiberId) (p : Pass) :
    acquired_order [pass_obs c p] = (if p = Pass.returned true then [c] else []) := by
  cases p with
  | returned b => cases b <;> simp [pass_obs, acquired_order]
  | suspended => simp [pass_obs, acquired_order]

theorem marked_order_pass_obs (c : FiberId) (p : Pass) :
    marked_order [pass_obs c p] = [] := by
  cases p with
  | returned b => cases b <;> simp [pass_obs, marked_order]
  | suspended => simp [pass_obs, marked_order]

theorem acquired_order_map_marked (fs : List FiberId) :
    acquired_order (fs.map Obs.marked) = [] := by
  induction fs with
  | nil => rfl
  | cons f fs ih => simp [acquired_order, ih]

/-- The hand-over invariant after a pass of a blocking loop by `c`, when `c` calls on a
mutex held by another fiber. -/
theorem handoff_inv_call {ts : Bool} {H c : FiberId} {o : Option Int} {s s1 : Sys}
    (hinv : handoff_inv H s)
    (h : s.after_pass c o (match o with
          | none => lock ts c s.mtx
          | some d => try_lock_until ts c d s.clock s.mtx) = Checked.ok s1)
    (hq1 : queue_order s1)
    (hrun : s.pc c = Pc.running)
    (hs : s.mtx.state_ = mutex_status.locked) (ho : s.mtx.owner_ ≠ some c) :
    handoff_inv H s1 := by
  obtain ⟨-, hnd, hsus, hpend⟩ := hinv
  obtain ⟨p, m1, t, hr, hm, hh, -, hpc, hrd⟩ := after_pass_ok h
  have hcq : c ∉ s.mtx.waiting_ := fun hc => hsus c hc hrun
  rcases hpend with ⟨hnone, hacq⟩ | ⟨f, -, -, hsf, -⟩
  · have hready : ∀ f, s1.ready f = false := by
      intro f
      rw [hrd]
      by_cases hfc : f = c
      · subst hfc; simp
      · simp [Function.update_noteq hfc, hnone f]
    have hord : acquired_order s1.hist = H :: marked_order s1.hist := by
      rw [hh, acquired_order_append, marked_order_append, acquired_order_pass_obs,
        marked_order_pass_obs, hacq]
      rcases pass_held hr hs ho with ⟨rfl, -⟩ | ⟨rfl, -, -⟩ <;> simp
    refine ⟨hq1, ?_, ?_, Or.inl ⟨hready, hord⟩⟩
    · rw [hm]
      rcases pass_held hr hs ho with ⟨-, rfl⟩ | ⟨-, hc, rfl⟩
      · exact hnd
      · exact List.Nodup.append hnd (List.nodup_singleton c) (by simpa using hc)
    · intro f hf
      rw [hm] at hf
      rw [hpc]
      rcases pass_held hr hs ho with ⟨rfl, rfl⟩ | ⟨rfl, hc, rfl⟩
      · have hfc : f ≠ c := fun e => hcq (e ▸ hf)
        simp only [Function.update_noteq hfc]
        exact hsus f hf
      · by_cases hfc : f = c
        · subst hfc
          cases o <;> simp [pass_pc, waiting_pc]
        · simp only [Function.update_noteq hfc]
          simp only [List.mem_append, List.mem_singleton] at hf
          rcases hf with hf | hf
          · exact hsus f hf
          · exact absurd hf hfc
  · rw [hs] at hsf
    cases hsf

/-- The hand-over invariant after a pass of a blocking loop by `c`, when `c` was marked
runnable and is resumed before its deadline. -/
theorem handoff_inv_wake {ts : Bool} {H c : FiberId} {o : Option Int} {s s1 : Sys}
    (hinv : handoff_inv H s)
    (h : s.after_pass c o (match o with
          | none => lock ts c s.mtx
          | some d => try_lock_until ts c d s.clock s.mtx) = Checked.ok s1)
    (hq1 : queue_order s1)
    (hrc : s.ready c = true) (hd : ∀ d, o = some d → s.clock ≤ d) :
    handoff_inv H s1 := by
  obtain ⟨-, hnd, hsus, hpend⟩ := hinv
  obtain ⟨p, m1, t, hr, hm, hh, -, hpc, hrd⟩ := after_pass_ok h
  rcases hpend with ⟨hnone, -⟩ | ⟨f, hf, huniq, hsf, hfq, hacq⟩
  · rw [hnone c] at hrc
    cases hrc
  · have hcf : c = f := huniq c hrc
    subst hcf
    obtain ⟨rfl, hw⟩ := pass_free hr hsf hd
    have hready : ∀ g, s1.ready g = false := by
      intro g
      rw [hrd]
      by_cases hgc : g = c
      · subst hgc; simp
      · simp only [Function.update_noteq hgc]
        cases hg : s.ready g with
        | false => rfl
        | true => exact absurd (huniq g hg) hgc
    have hord : acquired_order s1.hist = H :: marked_order s1.hist := by
      rw [hh, acquired_order_append, marked_order_append, acquired_order_pass_obs,
        marked_order_pass_obs]
      simpa using hacq
    refine ⟨hq1, ?_, ?_, Or.inl ⟨hready, hord⟩⟩
    · rw [hm, hw]
      exact hnd
    · intro g hg
      rw [hm, hw] at hg
      have hgc : g ≠ c := fun e => hfq (e ▸ hg)
      rw [hpc]
      simp only [Function.update_noteq hgc]
      exact hsus g hg

theorem handoff_inv_step {ts : Bool} {H : FiberId} {s s1 : Sys} {a : Action}
    (hinv : handoff_inv H s) (hen : s.enabled false a = true)
    (had : fifo_admissible s a = true) (h : s.step ts a = Checked.ok s1) :
    handoff_inv H s1 := by
  have hq1 : queue_order s1 := by
    refine queue_order_step (fun c hc => ?_) h hinv.1
    subst hc
    simp [fifo_admissible] at had
  cases a with
  | lock c =>
      simp only [Sys.step] at h
      simp [fifo_admissible] at had
      simp [Sys.enabled] at hen
      exact handoff_inv_call (o := none) hinv h hq1 hen had.1 had.2
  | try_lock_until c d =>
      simp only [Sys.step] at h
      simp [fifo_admissible] at had
      simp [Sys.enabled] at hen
      exact handoff_inv_call (o := some d) hinv h hq1 hen had.1 had.2
  | try_lock c =>
      simp only [Sys.step] at h
      simp [fifo_admissible] at had
      cases hr : try_lock ts c s.mtx with
      | assert_failed l => simp [hr] at h
      | ok r =>
          obtain ⟨b, m1, t⟩ := r
          obtain ⟨t0, h0⟩ := try_lock_cases hr
          obtain ⟨rfl, rfl⟩ := lock_if_unlocked_held h0 had.1 had.2
          simp [hr] at h
          subst h
          obtain ⟨-, hnd, hsus, hpend⟩ := hinv
          refine ⟨hq1, hnd, hsus, ?_⟩
          rcases hpend with ⟨hnone, hacq⟩ | ⟨f, hf, huniq, hsf, hfq, hacq⟩
          · refine Or.inl ⟨hnone, ?_⟩
            simp only [acquired_order_append, marked_order_append, acquired_order_pass_obs,
              marked_order_pass_obs, hacq]
            simp
          · rw [had.1] at hsf
            cases hsf
  | unlock c =>
      simp only [Sys.step] at h
      cases hr : unlock ts c s.mtx with
      | assert_failed l => simp [hr] at h
      | ok r =>
          obtain ⟨m1, t⟩ := r
          simp [hr] at h
          subst h
          obtain ⟨hs, hcase⟩ := unlock_marks hr
          obtain ⟨-, hnd, hsus, hpend⟩ := hinv
          rcases hpend with ⟨hnone, hacq⟩ | ⟨f, -, -, hsf, -⟩
          · have e : s.hist ++ Obs.released c :: (marked_runnable t).map Obs.marked
                = s.hist ++ [Obs.released c] ++ (marked_runnable t).map Obs.marked := by simp
            rcases hcase with ⟨hm0, hw⟩ | ⟨f, hmf, hw, hs1⟩
            · refine ⟨hq1, by simpa [hw] using hnd, by simpa [hw] using hsus, Or.inl ⟨?_, ?_⟩⟩
              · simpa [hm0, mark_all] using hnone
              · simp only [hm0, List.map_nil, acquired_order_append, marked_order_append, hacq]
                simp [acquired_order, marked_order]
            · rw [hw] at hnd hsus
              have hfr : f ∉ m1.waiting_ := (List.nodup_cons.mp hnd).1
              refine ⟨hq1, (List.nodup_cons.mp hnd).2,
                fun g hg => hsus g (List.mem_cons_of_mem _ hg), Or.inr ⟨f, ?_, ?_, hs1, hfr, ?_⟩⟩
              · simp [hmf, mark_all]
              · intro g hg
                simp only [hmf, mark_all] at hg
                by_cases hgf : g = f
                · exact hgf
                · simp only [Function.update_noteq hgf, hnone g] at hg
                  cases hg
              · simp only [e, hmf, acquired_order_append, marked_order_append, hacq]
                simp [acquired_order, marked_order]
          · rw [hs] at hsf
            cases hsf
  | wake c =>
      simp only [Sys.step] at h
      simp only [Sys.enabled, Bool.or_false, Bool.and_eq_true, decide_eq_true_eq] at hen
      cases hpc : s.pc c with
      | running => exact absurd hpc hen.1
      | in_lock =>
          simp only [hpc] at h
          exact handoff_inv_wake (o := none) hinv h hq1 hen.2 (by simp)
      | in_try_lock_until d =>
          simp only [hpc] at h
          simp [fifo_admissible, hpc] at had
          exact handoff_inv_wake (o := some d) hinv h hq1 hen.2
            (by intro d1 hd1; cases hd1; exact had)
  | timeout c => simp [fifo_admissible] at had
  | tick t =>
      simp [Sys.step] at h
      subst h
      exact ⟨hq1, hinv.2.1, hinv.2.2.1, hinv.2.2.2⟩

theorem handoff_inv_exec {ts : Bool} {H : FiberId} (as : List Action) :
    ∀ s s1 : Sys, Sys.exec_fifo ts s as = some s1 → handoff_inv H s → handoff_inv H s1 := by
  induction as with
  | nil =>
      intro s s1 h hinv
      simp [Sys.exec_fifo] at h
      subst h
      exact hinv
  | cons a as ih =>
      intro s s1 h hinv
      simp only [Sys.exec_fifo] at h
      split_ifs at h with hen
      simp only [Bool.and_eq_true] at hen
      cases hst : s.step ts a with
      | assert_failed l => simp [hst] at h
      | ok s2 =>
          simp only [hst] at h
          exact ih s2 s1 h (handoff_inv_step hinv hen.1 hen.2 hst)

theorem handoff_inv_first {ts : Bool} {H : FiberId} {s0 : Sys}
    (h : Sys.exec false ts Sys.init [Action.lock H] = some s0) : handoff_inv H s0 := by
  have hst : Sys.init.step ts (Action.lock H) = Checked.ok
      { Sys.init with mtx := ⟨mutex_status.locked, some H, 1, []⟩,
                      pc := Function.update Sys.init.pc H Pc.running,
                      ready := Function.update Sys.init.ready H false,
                      hist := [Obs.acquired H] } := by
    cases ts <;>
      simp [Sys.step, lock, lock_if_unlocked_, Sys.init, make, Sys.after_pass, pass_pc,
        pass_obs]
  simp [Sys.exec, Sys.enabled, hst] at h
  · obtain ⟨-, h⟩ := h
    subst h
    refine ⟨by simp [queue_order, blocked_order, marked_order], by simp, by simp,
      Or.inl ⟨?_, by simp [acquired_order, marked_order]⟩⟩
    intro f
    by_cases hf : f = H
    · subst hf; simp
    · simp [Function.update_noteq hf, Sys.init]

theorem handoff_inv_order {H : FiberId} {s : Sys} (hinv : handoff_inv H s) :
    ∃ rest, H :: blocked_order s.hist = acquired_order s.hist ++ rest := by
  obtain ⟨hq, -, -, hpend⟩ := hinv
  unfold queue_order at hq
  rcases hpend with ⟨-, hacq⟩ | ⟨f, -, -, -, -, hacq⟩
  · exact ⟨s.mtx.waiting_, by rw [hq, hacq]; simp⟩
  · exact ⟨f :: s.mtx.waiting_, by
      rw [hq, ← List.cons_append, ← hacq]; simp⟩

/-! ## The claims -/

/-- Claim C1 (mutual exclusion). In every state that the system reaches from the constructed
mutex by calls of `lock`, `try_lock`, `try_lock_until` and `unlock` of any fibers in any
order, with the scheduler resuming suspended fibers (with or without spurious wake-ups, in
both builds; a call of `unlock` by a fiber that is not the owner fails its assertion and
reaches no state): a fiber whose successful acquisitions outnumber its unlocks is `owner_`
and the number of its outstanding acquisitions is `count_`; so two fibers that both hold
the mutex are the same fiber. -/
theorem mutual_exclusion (spurious ts : Bool) (s : Sys) (h : Reachable spurious ts s) :
    (∀ f, s.hist.count (Obs.released f) < s.hist.count (Obs.acquired f) →
      s.mtx.owner_ = some f ∧ outstanding s.hist f = s.mtx.count_) ∧
    (∀ f g, s.hist.count (Obs.released f) < s.hist.count (Obs.acquired f) →
      s.hist.count (Obs.released g) < s.hist.count (Obs.acquired g) → f = g) := by
  obtain ⟨as, hex⟩ := h
  obtain ⟨-, hh⟩ := core_inv_exec as _ _ hex core_inv_init
  have key : ∀ f, s.hist.count (Obs.released f) < s.hist.count (Obs.acquired f) →
      s.mtx.owner_ = some f ∧ outstanding s.hist f = s.mtx.count_ := by
    intro f hf
    have h1 := hh f
    by_cases ho : s.mtx.owner_ = some f
    · exact ⟨ho, by rw [h1]; simp [ho]⟩
    · simp only [ho, if_false] at h1
      unfold outstanding at h1
      omega
  refine ⟨key, fun f g hf hg => ?_⟩
  have h1 := (key f hf).1
  have h2 := (key g hg).1
  rw [h1] at h2
  exact Option.some.inj h2

theorem mutual_exclusion_witness :
    ∃ s, Sys.exec false true Sys.init
        [Action.lock 1, Action.lock 2, Action.try_lock 1, Action.try_lock_until 3 50,
         Action.unlock 1] = some s ∧
      ((∀ f, s.hist.count (Obs.released f) < s.hist.count (Obs.acquired f) →
        s.mtx.owner_ = some f ∧ outstanding s.hist f = s.mtx.count_) ∧
      (∀ f g, s.hist.count (Obs.released f) < s.hist.count (Obs.acquired f) →
        s.hist.count (Obs.released g) < s.hist.count (Obs.acquired g) → f = g)) := by
  have h : (Sys.exec false true Sys.init
        [Action.lock 1, Action.lock 2, Action.try_lock 1, Action.try_lock_until 3 50,
         Action.unlock 1]).isSome = true := by decide
  obtain ⟨s, hs⟩ := Option.isSome_iff_exists.mp h
  exact ⟨s, hs, mutual_exclusion false true s ⟨_, hs⟩⟩

/-- Claim C2 (recursive balance). From the constructed mutex, after `k >= 1` calls of `lock()`
by fiber `F` (each returns at once), `j < k` calls of `unlock()` by `F` leave the mutex
locked with owner `F` and count `k - j`; exactly `k` calls leave it as constructed
(unlocked, no owner, count 0); the call after that fails the first precondition check of
`unlock` (line 150), and both checked conditions are false in that state. -/
theorem recursive_balance (ts : Bool) (F : FiberId) (k : Nat) (hk : 1 ≤ k) :
    ∃ mk, lock_times ts F k make = some mk ∧
      (∀ j, j < k → unlock_times ts F j mk = Checked.ok
        { state_ := mutex_status.locked, owner_ := some F, count_ := (k : Int) - j,
          waiting_ := [] }) ∧
      unlock_times ts F k mk = Checked.ok make ∧
      unlock_times ts F (k + 1) mk = Checked.assert_failed 150 ∧
      ¬ (mutex_status.locked = make.state_) ∧ ¬ (some F = make.owner_) := by
  obtain ⟨k, rfl⟩ : ∃ i, k = i + 1 := ⟨k - 1, by omega⟩
  refine ⟨_, lock_times_make ts F k, ?_, ?_, ?_, by simp [make], by simp [make]⟩
  · intro j hj
    have := unlock_times_below ts F [] j ((k : Int) + 1) (by omega)
    simpa using this
  · rw [unlock_times_succ, unlock_times_below ts F [] k ((k : Int) + 1) (by omega)]
    simp [unlock, make]
  · rw [unlock_times_succ, unlock_times_succ,
      unlock_times_below ts F [] k ((k : Int) + 1) (by omega)]
    simp [unlock]

theorem recursive_balance_witness :
    ∃ mk, lock_times true 5 2 make = some mk ∧
      (∀ j, j < 2 → unlock_times true 5 j mk = Checked.ok
        { state_ := mutex_status.locked, owner_ := some 5, count_ := ((2 : Nat) : Int) - j,
          waiting_ := [] }) ∧
      unlock_times true 5 2 mk = Checked.ok make ∧
      unlock_times true 5 (2 + 1) mk = Checked.assert_failed 150 ∧
      ¬ (mutex_status.locked = make.state_) ∧ ¬ (some 5 = make.owner_) :=
  recursive_balance true 5 2 (by decide)

/-- Claim C3 (acquisition decision). On a mutex that satisfies the data invariant,
`lock_if_unlocked_` called by `c` passes its assertion and returns `true` exactly when the
mutex is unlocked or owned by `c`; from unlocked the mutex becomes locked with owner `c`
and count 1; when locked by `c` the count grows by exactly 1 with state and owner kept;
when it returns `false` the mutex is unchanged; the wait queue is never touched. -/
theorem lock_if_unlocked_decision (c : FiberId) (m : recursive_timed_mutex)
    (hinv : data_invariant m) :
    ∃ b m1 t, lock_if_unlocked_ c m = Checked.ok (b, m1, t) ∧
      (b = true ↔ (m.state_ = mutex_status.unlocked ∨ m.owner_ = some c)) ∧
      (m.state_ = mutex_status.unlocked →
        m1.state_ = mutex_status.locked ∧ m1.owner_ = some c ∧ m1.count_ = 1) ∧
      (m.state_ = mutex_status.locked → m.owner_ = some c →
        m1.count_ = m.count_ + 1 ∧ m1.state_ = m.state_ ∧ m1.owner_ = m.owner_) ∧
      (b = false → m1 = m) ∧
      m1.waiting_ = m.waiting_ := by
  obtain ⟨hl, hu⟩ := hinv
  unfold lock_if_unlocked_
  by_cases hs : m.state_ = mutex_status.unlocked
  · obtain ⟨ho, hc⟩ := hu hs
    simp [hs, ho, hc]
  · have hs1 : m.state_ = mutex_status.locked := by
      cases h : m.state_ <;> simp_all
    by_cases ho : some c = m.owner_
    · simp [hs1, ← ho]
    · have ho1 : ¬ m.owner_ = some c := fun h => ho h.symm
      simp [hs1, ho, ho1]

theorem lock_if_unlocked_decision_witness :
    data_invariant ⟨mutex_status.locked, some 7, 2, [3]⟩ ∧
    ∃ b m1 t, lock_if_unlocked_ 7 ⟨mutex_status.locked, some 7, 2, [3]⟩
        = Checked.ok (b, m1, t) ∧ m1.count_ = 3 ∧ m1.owner_ = some 7 := by
  have hinv : data_invariant ⟨mutex_status.locked, some 7, 2, [3]⟩ := by
    simp [data_invariant]
  obtain ⟨b, m1, t, h, -, -, hl, -, -⟩ :=
    lock_if_unlocked_decision 7 ⟨mutex_status.locked, some 7, 2, [3]⟩ hinv
  obtain ⟨hc, -, ho⟩ := hl rfl rfl
  exact ⟨hinv, b, m1, t, h, by simpa using hc, by simpa using ho⟩

/-- Claim C4 (final release). When the mutex is locked by the caller with count 1, `unlock`
passes its assertions and leaves the mutex unlocked, without owner, with count 0 and with
the wait queue without its first entry. Its trace is `pre` followed by one `set_ready` for
the former head of the queue, or by nothing when the queue was empty: no fiber is marked
runnable in `pre`, the writes of state, owner and count are all in `pre`, and the guard is
not held at the end of `pre` (in the thread-safe build `pre` ends with the release of the
guard, which it had taken). -/
theorem unlock_final_release (ts : Bool) (c : FiberId) (m : recursive_timed_mutex)
    (hs : m.state_ = mutex_status.locked) (ho : m.owner_ = some c) (hc : m.count_ = 1) :
    ∃ pre : List Event,
      unlock ts c m = Checked.ok
        ({ state_ := mutex_status.unlocked, owner_ := none, count_ := 0,
           waiting_ := m.waiting_.tail },
         pre ++ m.waiting_.head?.toList.map Event.set_ready) ∧
      marked_runnable (pre ++ m.waiting_.head?.toList.map Event.set_ready)
        = m.waiting_.head?.toList ∧
      marked_runnable pre = [] ∧
      Event.write Field.state_ ∈ pre ∧ Event.write Field.owner_ ∈ pre ∧
      Event.write Field.count_ ∈ pre ∧
      guard_held false pre = false ∧
      (ts = true → ∃ p, pre = p ++ [Event.release_guard] ∧ Event.acquire_guard ∈ p) := by
  unfold unlock
  cases hq : m.waiting_ with
  | nil =>
      refine ⟨[Event.read Field.state_, Event.read Field.owner_] ++ guard ts Event.acquire_guard
              ++ [Event.read Field.count_, Event.write Field.count_, Event.read Field.waiting_,
                  Event.write Field.owner_, Event.write Field.state_]
              ++ guard ts Event.release_guard, ?_⟩
      cases ts
      · simp [hs, ho, hc, hq, guard, marked_runnable, guard_held]
      · simp [hs, ho, hc, hq, guard, marked_runnable, guard_held]
        exact ⟨[Event.read Field.state_, Event.read Field.owner_, Event.acquire_guard,
          Event.read Field.count_, Event.write Field.count_, Event.read Field.waiting_,
          Event.write Field.owner_, Event.write Field.state_], rfl, by simp⟩
  | cons f rest =>
      refine ⟨[Event.read Field.state_, Event.read Field.owner_] ++ guard ts Event.acquire_guard
              ++ [Event.read Field.count_, Event.write Field.count_, Event.read Field.waiting_,
                  Event.read Field.waiting_, Event.write Field.waiting_,
                  Event.write Field.owner_, Event.write Field.state_]
              ++ guard ts Event.release_guard, ?_⟩
      cases ts
      · simp [hs, ho, hc, hq, guard, marked_runnable, guard_held]
      · simp [hs, ho, hc, hq, guard, marked_runnable, guard_held]
        exact ⟨[Event.read Field.state_, Event.read Field.owner_, Event.acquire_guard,
          Event.read Field.count_, Event.write Field.count_, Event.read Field.waiting_,
          Event.read Field.waiting_, Event.write Field.waiting_,
          Event.write Field.owner_, Event.write Field.state_], rfl, by simp⟩

theorem unlock_final_release_witness :
    ∃ pre : List Event,
      unlock true 1 ⟨mutex_status.locked, some 1, 1, [4, 5]⟩
        = Checked.ok (⟨mutex_status.unlocked, none, 0, [5]⟩, pre ++ [Event.set_ready 4]) ∧
      marked_runnable pre = [] ∧ guard_held false pre = false := by
  obtain ⟨pre, h, -, hm, -, -, -, hg, -⟩ :=
    unlock_final_release true 1 ⟨mutex_status.locked, some 1, 1, [4, 5]⟩ rfl rfl rfl
  exact ⟨pre, by simpa using h, hm, hg⟩

/-- Claim C5 (FIFO wake-up). First part, for every schedule from the constructed mutex in
which no waiter times out: the fibers marked runnable so far, followed by the wait queue,
are the fibers that were queued, in the order in which they were queued; so the i-th fiber
that an unlock marks runnable is the i-th fiber that blocked. Second part, for every
schedule that starts with the acquisition by `H` and goes on without fast-path
acquisitions, time-outs and spurious wake-ups (`Sys.exec_fifo`): the fibers that get the
mutex after `H` do so in the order in which they blocked. Third part: when the distinct
fibers of `ws` (none of them the holder `H`) block in that order, by `lock()` or by
`try_lock_until(d)` with a deadline not yet passed, and then the holder releases, the
marked fiber is resumed and releases in its turn, and so on, every step is enabled and
passes every assertion, the i-th release marks exactly the i-th fiber of `ws`, and the
fibers get the mutex in the order of `ws`. -/
theorem fifo_wakeup (ts : Bool) :
    (∀ (spurious : Bool) (as : List Action) (s : Sys),
      (∀ c, Action.timeout c ∉ as) → Sys.exec spurious ts Sys.init as = some s →
      blocked_order s.hist = marked_order s.hist ++ s.mtx.waiting_) ∧
    (∀ (H : FiberId) (s0 : Sys) (as : List Action) (s : Sys),
      Sys.exec false ts Sys.init [Action.lock H] = some s0 →
      Sys.exec_fifo ts s0 as = some s →
      blocked_order s.hist = marked_order s.hist ++ s.mtx.waiting_ ∧
      ∃ rest, H :: blocked_order s.hist = acquired_order s.hist ++ rest) ∧
    (∀ (H : FiberId) (ws : List Waiter) (s : Sys),
      s.mtx = ⟨mutex_status.locked, some H, 1, []⟩ → s.pc H = Pc.running →
      H ∉ ws.map Prod.fst → (ws.map Prod.fst).Nodup →
      (∀ w ∈ ws, s.pc w.1 = Pc.running) →
      (∀ w ∈ ws, ∀ d, w.2 = some d → s.clock ≤ d) →
      ∃ s1 s2, Sys.exec false ts s (ws.map block_call) = some s1 ∧
        s1.mtx = ⟨mutex_status.locked, some H, 1, ws.map Prod.fst⟩ ∧
        Sys.exec false ts s1 (handoff H (ws.map Prod.fst)) = some s2 ∧
        s2.hist = s.hist ++ ws.map (fun w => Obs.blocked w.1)
          ++ handoff_obs H (ws.map Prod.fst) ∧
        marked_order (s2.hist.drop s.hist.length) = ws.map Prod.fst ∧
        acquired_order (s2.hist.drop s.hist.length) = ws.map Prod.fst ∧
        s2.mtx = ⟨mutex_status.locked, some (final_holder H (ws.map Prod.fst)), 1, []⟩) := by
  refine ⟨?_, ?_, ?_⟩
  · intro spurious as s hnt hex
    exact queue_order_exec as _ _ hnt hex (by simp [queue_order, Sys.init, make,
      blocked_order, marked_order])
  · intro H s0 as s h0 hex
    have hinv := handoff_inv_exec as s0 s hex (handoff_inv_first h0)
    exact ⟨hinv.1, handoff_inv_order hinv⟩
  · intro H ws s hm hH hHn hnd hrun hdl
    obtain ⟨s1, hex1, hm1, hh1, hc1, hpc1, hother⟩ :=
      block_phase false ts H 1 ws s [] hm hHn hnd (by simp) hrun hdl
    obtain ⟨s2, hex2, hh2, hm2⟩ :=
      handoff_phase ts ws s1 H (by simpa using hm1) (by rw [hother H hHn]; exact hH) hHn hnd
        hpc1 (by rw [hc1]; exact hdl)
    refine ⟨s1, s2, hex1, by simpa using hm1, hex2, by rw [hh2, hh1], ?_, ?_, hm2⟩
    · rw [hh2, hh1, List.append_assoc, List.drop_left, marked_order_append,
        marked_order_map_blocked, marked_order_handoff_obs]
      rfl
    · rw [hh2, hh1, List.append_assoc, List.drop_left, acquired_order_append,
        acquired_order_map_blocked, acquired_order_handoff_obs]
      rfl

theorem fifo_wakeup_witness :
    (∃ s, Sys.exec false true Sys.init
        [Action.lock 1, Action.lock 2, Action.try_lock_until 3 9, Action.unlock 1,
         Action.tick 5, Action.wake 2, Action.lock 1] = some s ∧
      blocked_order s.hist = marked_order s.hist ++ s.mtx.waiting_) ∧
    (∃ s0 s, Sys.exec false true Sys.init [Action.lock 1] = some s0 ∧
      Sys.exec_fifo true s0
        [Action.lock 2, Action.try_lock_until 3 9, Action.try_lock 4, Action.unlock 1,
         Action.tick 5, Action.wake 2, Action.lock 4, Action.lock 1, Action.unlock 2,
         Action.wake 3] = some s ∧
      ∃ rest, 1 :: blocked_order s.hist = acquired_order s.hist ++ rest) ∧
    (∃ s1 s2, Sys.exec false true
        { mtx := ⟨mutex_status.locked, some 1, 1, []⟩, pc := fun _ => Pc.running,
          ready := fun _ => false, clock := 0, hist := [Obs.acquired 1] }
        ([(2, none), (3, some 9), (4, none)].map block_call) = some s1 ∧
      s1.mtx = ⟨mutex_status.locked, some 1, 1, [2, 3, 4]⟩ ∧
      Sys.exec false true s1 (handoff 1 [2, 3, 4]) = some s2 ∧
      marked_order (s2.hist.drop 1) = [2, 3, 4] ∧
      acquired_order (s2.hist.drop 1) = [2, 3, 4]) := by
  refine ⟨?_, ?_, ?_⟩
  · have h : (Sys.exec false true Sys.init
        [Action.lock 1, Action.lock 2, Action.try_lock_until 3 9, Action.unlock 1,
         Action.tick 5, Action.wake 2, Action.lock 1]).isSome = true := by decide
    obtain ⟨s, hs⟩ := Option.isSome_iff_exists.mp h
    exact ⟨s, hs, (fifo_wakeup true).1 false _ s (by intro c; simp) hs⟩
  · have h0 : (Sys.exec false true Sys.init [Action.lock 1]).isSome = true := by decide
    obtain ⟨s0, hs0⟩ := Option.isSome_iff_exists.mp h0
    have h : ((Sys.exec false true Sys.init [Action.lock 1]).bind (fun s0 =>
        Sys.exec_fifo true s0
          [Action.lock 2, Action.try_lock_until 3 9, Action.try_lock 4, Action.unlock 1,
           Action.tick 5, Action.wake 2, Action.lock 4, Action.lock 1, Action.unlock 2,
           Action.wake 3])).isSome = true := by decide
    rw [hs0] at h
    obtain ⟨s, hs⟩ := Option.isSome_iff_exists.mp h
    exact ⟨s0, s, hs0, hs, ((fifo_wakeup true).2.1 1 s0 _ s hs0 hs).2⟩
  · obtain ⟨s1, s2, h1, h2, h3, -, h5, h6, -⟩ := (fifo_wakeup true).2.2 1
      [(2, none), (3, some 9), (4, none)]
      { mtx := ⟨mutex_status.locked, some 1, 1, []⟩, pc := fun _ => Pc.running,
        ready := fun _ => false, clock := 0, hist := [Obs.acquired 1] }
      rfl rfl (by decide) (by decide) (by simp) (by simp)
    exact ⟨s1, s2, h1, h2, h3, h5, h6⟩

/-- Claim C6 (`try_lock` never blocks). Whenever `try_lock` returns, it has made the one
attempt of `lock_if_unlocked_` (same result, same mutex), has left the wait queue as it
was, has not suspended the caller, and has yielded once when it returns `false` and not
at all when it returns `true`; on a mutex that satisfies the data invariant it does
return. When the mutex is locked by a fiber other than the caller it returns `false`
after exactly one yield and leaves the mutex unchanged. So for distinct fibers `F1`, `F2`
and the constructed mutex: after `F1` acquires, the `try_lock` of `F2` returns `false`;
after `F1` unlocks, the `try_lock` of `F2` returns `true` and `F2` is the owner. -/
theorem try_lock_never_blocks (ts : Bool) (c : FiberId) (m : recursive_timed_mutex) :
    (∀ b m1 t, try_lock ts c m = Checked.ok (b, m1, t) →
      (∃ t0, lock_if_unlocked_ c m = Checked.ok (b, m1, t0)) ∧
      m1.waiting_ = m.waiting_ ∧ Event.suspend ∉ t ∧ (∀ d, Event.suspend_until d ∉ t) ∧
      t.count Event.yield = (if b then 0 else 1)) ∧
    (data_invariant m → ∃ b m1 t, try_lock ts c m = Checked.ok (b, m1, t)) ∧
    (∀ o, m.state_ = mutex_status.locked → m.owner_ = some o → o ≠ c →
      ∃ t, try_lock ts c m = Checked.ok (false, m, t) ∧ t.count Event.yield = 1) ∧
    (∀ F1 F2 : FiberId, F1 ≠ F2 →
      ∃ m1 t1 t2 m3 t3 m4 t4,
        lock ts F1 make = Checked.ok (Pass.returned true, m1, t1) ∧
        try_lock ts F2 m1 = Checked.ok (false, m1, t2) ∧
        unlock ts F1 m1 = Checked.ok (m3, t3) ∧
        m3.state_ = mutex_status.unlocked ∧
        try_lock ts F2 m3 = Checked.ok (true, m4, t4) ∧
        m4.state_ = mutex_status.locked ∧ m4.owner_ = some F2) := by
  refine ⟨?_, ?_, ?_, ?_⟩
  · intro b m1 t h
    unfold try_lock at h
    unfold lock_if_unlocked_ at h ⊢
    by_cases hs : m.state_ = mutex_status.unlocked
    · by_cases ho : m.owner_ = none
      · simp only [hs, ho, if_true, ne_eq, not_true, if_false] at h ⊢
        cases ts <;> simp [guard] at h <;> obtain ⟨rfl, rfl, rfl⟩ := h <;> simp
      · simp [hs, ho] at h
    · by_cases ho : some c = m.owner_
      · simp only [hs, ho, if_true, if_false] at h ⊢
        cases ts <;> simp [guard] at h <;> obtain ⟨rfl, rfl, rfl⟩ := h <;> simp
      · simp only [hs, ho, if_true, if_false] at h ⊢
        cases ts <;> simp [guard] at h <;> obtain ⟨rfl, rfl, rfl⟩ := h <;> simp
  · intro hinv
    obtain ⟨hl, hu⟩ := hinv
    unfold try_lock lock_if_unlocked_
    by_cases hs : m.state_ = mutex_status.unlocked
    · simp [hs, (hu hs).1]
    · by_cases ho : some c = m.owner_ <;> simp [hs, ho]
  · intro o hs ho hne
    unfold try_lock lock_if_unlocked_
    have h1 : ¬ (c = o) := fun h => hne h.symm
    cases ts <;> simp [hs, ho, h1, guard]
  · intro F1 F2 hne
    have h1 : ¬ (F2 = F1) := fun h => hne h.symm
    cases ts <;>
      simp [lock, try_lock, unlock, lock_if_unlocked_, make, guard, h1]

theorem try_lock_never_blocks_witness :
    ∃ t, try_lock true 2 ⟨mutex_status.locked, some 1, 3, [5]⟩
        = Checked.ok (false, ⟨mutex_status.locked, some 1, 3, [5]⟩, t) ∧
      t.count Event.yield = 1 :=
  (try_lock_never_blocks true 2 ⟨mutex_status.locked, some 1, 3, [5]⟩).2.2.1 1 rfl rfl
    (by decide)

/-- Claim C7 (expired deadline). For every mutex state, when the clock is past the deadline
at the attempt, the pass of `try_lock_until` returns `false` at once: the mutex (state,
owner, count and wait queue) is unchanged, nothing is written, and the caller is not
suspended. -/
theorem try_lock_until_expired (ts : Bool) (c : FiberId) (d now : Int)
    (m : recursive_timed_mutex) (h : now > d) :
    ∃ t, try_lock_until ts c d now m = Checked.ok (Pass.returned false, m, t) ∧
      Event.suspend ∉ t ∧ (∀ x, Event.suspend_until x ∉ t) ∧ (∀ x, Event.write x ∉ t) := by
  unfold try_lock_until
  cases ts <;> simp [h, guard]

theorem try_lock_until_expired_witness :
    ∃ t, try_lock_until true 2 10 11 ⟨mutex_status.locked, some 1, 1, [3]⟩
        = Checked.ok (Pass.returned false, ⟨mutex_status.locked, some 1, 1, [3]⟩, t) ∧
      Event.suspend ∉ t := by
  obtain ⟨t, h, hs, -, -⟩ :=
    try_lock_until_expired true 2 10 11 ⟨mutex_status.locked, some 1, 1, [3]⟩ (by decide)
  exact ⟨t, h, hs⟩

/-- Claim C8, counterexample. Fiber 1 holds the mutex, fiber 2 is queued in
`try_lock_until(100)`, fiber 1 unlocks at clock 50 and no other fiber acquires the mutex.
In the first run fiber 2, marked runnable at 50, is resumed as woken at clock 101: the
deadline check at the top of the loop makes its call return `false`, and the mutex stays
free. In the second run the scheduler resumes it at 101 as timed out, with the same
result. In the third run fiber 3 is queued ahead of fiber 2: the unlock marks fiber 3,
fiber 2 is not resumed before its deadline and its call returns `false`. -/
theorem release_within_deadline_counterexample :
    (Sys.exec false true Sys.init
        [Action.lock 1, Action.try_lock_until 2 100, Action.tick 50, Action.unlock 1,
         Action.tick 101, Action.wake 2]).map (fun s => (s.mtx, s.hist, s.pc 2))
      = some (make, [Obs.acquired 1, Obs.blocked 2, Obs.released 1, Obs.marked 2,
                     Obs.refused 2], Pc.running) ∧
    (Sys.exec false true Sys.init
        [Action.lock 1, Action.try_lock_until 2 100, Action.tick 50, Action.unlock 1,
         Action.tick 101, Action.timeout 2]).map (fun s => (s.mtx, s.hist, s.pc 2))
      = some (make, [Obs.acquired 1, Obs.blocked 2, Obs.released 1, Obs.marked 2,
                     Obs.refused 2], Pc.running) ∧
    (Sys.exec false true Sys.init
        [Action.lock 1, Action.lock 3, Action.try_lock_until 2 100, Action.tick 50,
         Action.unlock 1, Action.tick 100, Action.timeout 2]).map
        (fun s => (s.mtx, s.hist, s.pc 2))
      = some (make, [Obs.acquired 1, Obs.blocked 3, Obs.blocked 2, Obs.released 1,
                     Obs.marked 3, Obs.refused 2], Pc.running) := by
  refine ⟨?_, ?_, ?_⟩ <;> decide

/-- Claim C8, amended (release within the deadline). Fiber `F1` holds the mutex with count 1,
fiber `F2` is suspended in `try_lock_until(d)` and is the first entry of the wait queue.
When `F1` unlocks and `F2` is resumed as woken at a clock reading `now` not later than `d`,
with no other step in between, the call of `F2` returns `true` at `now`, with `F2` as owner
and count 1, and the rest of the queue is kept. (The two fibers are distinct: one is
running, the other suspended.) -/
theorem release_within_deadline (ts : Bool) (F1 F2 : FiberId) (d now : Int)
    (q : List FiberId) (s : Sys)
    (hm : s.mtx = ⟨mutex_status.locked, some F1, 1, F2 :: q⟩)
    (h1 : s.pc F1 = Pc.running) (h2 : s.pc F2 = Pc.in_try_lock_until d)
    (hc : s.clock ≤ now) (hd : now ≤ d) :
    F1 ≠ F2 ∧
    ∃ s1, Sys.exec false ts s [Action.unlock F1, Action.tick now, Action.wake F2] = some s1 ∧
      s1.mtx = ⟨mutex_status.locked, some F2, 1, q⟩ ∧
      s1.hist = s.hist ++ [Obs.released F1, Obs.marked F2, Obs.acquired F2] ∧
      s1.pc F2 = Pc.running ∧ s1.clock = now := by
  have hst1 := step_unlock_full ts s F1 F2 q hm
  have hen1 : s.enabled false (Action.unlock F1) = true := by simp [Sys.enabled, h1]
  have hst3 := step_wake_acquires ts
    { s with mtx := ⟨mutex_status.unlocked, none, 0, q⟩,
             ready := Function.update s.ready F2 true,
             clock := now,
             hist := s.hist ++ [Obs.released F1, Obs.marked F2] }
    F2 (some d) q rfl h2 (by intro d1 hd1; cases hd1; exact hd)
  refine ⟨fun h => ?_,
    { s with mtx := ⟨mutex_status.locked, some F2, 1, q⟩,
             pc := Function.update s.pc F2 Pc.running,
             ready := Function.update (Function.update s.ready F2 true) F2 false,
             clock := now,
             hist := s.hist ++ [Obs.released F1, Obs.marked F2] ++ [Obs.acquired F2] },
    ?_, rfl, by simp, by simp, rfl⟩
  · rw [h, h2] at h1
    cases h1
  · have hst2 : Sys.step ts
          { s with mtx := ⟨mutex_status.unlocked, none, 0, q⟩,
                   ready := Function.update s.ready F2 true,
                   hist := s.hist ++ [Obs.released F1, Obs.marked F2] }
          (Action.tick now)
        = Checked.ok
          { s with mtx := ⟨mutex_status.unlocked, none, 0, q⟩,
                   ready := Function.update s.ready F2 true,
                   clock := now,
                   hist := s.hist ++ [Obs.released F1, Obs.marked F2] } := rfl
    have hen2 : Sys.enabled false
          { s with mtx := ⟨mutex_status.unlocked, none, 0, q⟩,
                   ready := Function.update s.ready F2 true,
                   hist := s.hist ++ [Obs.released F1, Obs.marked F2] }
          (Action.tick now) = true := by simp [Sys.enabled, hc]
    have hen3 : Sys.enabled false
          { s with mtx := ⟨mutex_status.unlocked, none, 0, q⟩,
                   ready := Function.update s.ready F2 true,
                   clock := now,
                   hist := s.hist ++ [Obs.released F1, Obs.marked F2] }
          (Action.wake F2) = true := by simp [Sys.enabled, h2]
    rw [exec_cons_ok _ hen1 hst1, exec_cons_ok _ hen2 hst2, exec_cons_ok _ hen3 hst3]
    rfl

theorem release_within_deadline_witness :
    (1 : FiberId) ≠ 2 ∧
    ∃ s1, Sys.exec false true
        { mtx := ⟨mutex_status.locked, some 1, 1, [2, 3]⟩,
          pc := fun f => if f = 2 then Pc.in_try_lock_until 100 else
                  if f = 3 then Pc.in_lock else Pc.running,
          ready := fun _ => false, clock := 40,
          hist := [Obs.acquired 1, Obs.blocked 2, Obs.blocked 3] }
        [Action.unlock 1, Action.tick 50, Action.wake 2] = some s1 ∧
      s1.mtx = ⟨mutex_status.locked, some 2, 1, [3]⟩ ∧
      s1.hist = [Obs.acquired 1, Obs.blocked 2, Obs.blocked 3]
        ++ [Obs.released 1, Obs.marked 2, Obs.acquired 2] ∧
      s1.pc 2 = Pc.running ∧ s1.clock = 50 :=
  release_within_deadline true 1 2 100 50 [3]
    { mtx := ⟨mutex_status.locked, some 1, 1, [2, 3]⟩,
      pc := fun f => if f = 2 then Pc.in_try_lock_until 100 else
              if f = 3 then Pc.in_lock else Pc.running,
      ready := fun _ => false, clock := 40,
      hist := [Obs.acquired 1, Obs.blocked 2, Obs.blocked 3] }
    rfl rfl rfl (by decide) (by decide)

/-- Claim C9 (timeout cleanup). For a duplicate-free wait queue, the timed-out branch of
`try_lock_until` returns `false` and leaves the queue with the entries other than the
caller, in their order; the caller is not in the result; when the caller was not in the
queue the mutex is unchanged; state, owner and count are unchanged; and running the
cleanup a second time changes nothing. -/
theorem timed_out_cleanup (ts : Bool) (f : FiberId) (m : recursive_timed_mutex)
    (hq : m.waiting_.Nodup) :
    (try_lock_until_timed_out ts f m).1 = false ∧
    (try_lock_until_timed_out ts f m).2.1.waiting_ = m.waiting_.filter (fun g => g ≠ f) ∧
    f ∉ (try_lock_until_timed_out ts f m).2.1.waiting_ ∧
    (f ∉ m.waiting_ → (try_lock_until_timed_out ts f m).2.1 = m) ∧
    (try_lock_until_timed_out ts f m).2.1.state_ = m.state_ ∧
    (try_lock_until_timed_out ts f m).2.1.owner_ = m.owner_ ∧
    (try_lock_until_timed_out ts f m).2.1.count_ = m.count_ ∧
    (try_lock_until_timed_out ts f (try_lock_until_timed_out ts f m).2.1).2.1
      = (try_lock_until_timed_out ts f m).2.1 := by
  have hfilter : m.waiting_.erase f = m.waiting_.filter (fun g => g ≠ f) := by
    rw [List.Nodup.erase_eq_filter hq]
    congr 1
    funext x
    by_cases hx : x = f <;> simp [hx]
  have hnot : f ∉ m.waiting_.filter (fun g => g ≠ f) := by simp
  unfold try_lock_until_timed_out
  by_cases hmem : f ∈ m.waiting_
  · have hnot1 : f ∉ m.waiting_.erase f := by rw [hfilter]; exact hnot
    simp only [hmem, if_true, hnot1, if_false, hfilter]
    simp
  · have h1 : m.waiting_.filter (fun g => g ≠ f) = m.waiting_ := by
      rw [← hfilter]; exact List.erase_of_not_mem hmem
    simp only [hmem, if_false, h1]
    simp [hmem]

theorem timed_out_cleanup_witness :
    [4, 7, 5].Nodup ∧
    (try_lock_until_timed_out true 7 ⟨mutex_status.locked, some 1, 2, [4, 7, 5]⟩).2.1.waiting_
      = [4, 5] := by
  have hq : (recursive_timed_mutex.mk mutex_status.locked (some 1) 2 [4, 7, 5]).waiting_.Nodup := by
    decide
  exact ⟨hq, by
    rw [(timed_out_cleanup true 7 ⟨mutex_status.locked, some 1, 2, [4, 7, 5]⟩ hq).2.1]
    decide⟩

/-- Claim C10 (frame of an unlock that is not the last). When the mutex is locked by the
caller with count `n >= 2`, `unlock` passes its assertions and changes the count to
`n - 1` and nothing else: state, owner and wait queue are as before, no fiber is marked
runnable, and the only field written is the count. -/
theorem unlock_keeps_lock_below_top (ts : Bool) (c : FiberId) (m : recursive_timed_mutex)
    (hs : m.state_ = mutex_status.locked) (ho : m.owner_ = some c) (hn : 2 ≤ m.count_) :
    ∃ t, unlock ts c m = Checked.ok ({ m with count_ := m.count_ - 1 }, t) ∧
      marked_runnable t = [] ∧
      (∀ x, Event.write x ∈ t → x = Field.count_) := by
  unfold unlock
  have h0 : ¬ (0 = m.count_ - 1) := by omega
  cases ts <;> simp [hs, ho, h0, guard, marked_runnable]

theorem unlock_keeps_lock_below_top_witness :
    ∃ t, unlock true 1 ⟨mutex_status.locked, some 1, 3, [4]⟩
        = Checked.ok (⟨mutex_status.locked, some 1, 2, [4]⟩, t) ∧ marked_runnable t = [] := by
  obtain ⟨t, h, hm, -⟩ :=
    unlock_keeps_lock_below_top true 1 ⟨mutex_status.locked, some 1, 3, [4]⟩ rfl rfl
      (by decide)
  exact ⟨t, by simpa using h, hm⟩

/-! ## Further facts about the operations and the system -/

theorem lock_if_unlocked_total {c : FiberId} {m : recursive_timed_mutex}
    (hinv : data_invariant m) : ∃ b m1 t, lock_if_unlocked_ c m = Checked.ok (b, m1, t) := by
  obtain ⟨-, hu⟩ := hinv
  unfold lock_if_unlocked_
  by_cases hs : m.state_ = mutex_status.unlocked
  · simp [hs, (hu hs).1]
  · by_cases ho : some c = m.owner_ <;> simp [hs, ho]

theorem lock_pass_total {ts : Bool} {c : FiberId} {m : recursive_timed_mutex}
    (hinv : data_invariant m) (hc : c ∉ m.waiting_) :
    ∃ p m1 t, lock ts c m = Checked.ok (p, m1, t) := by
  obtain ⟨b, m1, t, h⟩ := lock_if_unlocked_total (c := c) hinv
  have hw := lock_if_unlocked_waiting h
  cases b with
  | true => simp [lock, h]
  | false => simp [lock, h, hw, hc]

theorem try_lock_until_pass_total {ts : Bool} {c : FiberId} {d now : Int}
    {m : recursive_timed_mutex} (hinv : data_invariant m) (hc : c ∉ m.waiting_) :
    ∃ p m1 t, try_lock_until ts c d now m = Checked.ok (p, m1, t) := by
  obtain ⟨b, m1, t, h⟩ := lock_if_unlocked_total (c := c) hinv
  have hw := lock_if_unlocked_waiting h
  unfold try_lock_until
  by_cases hd : now > d
  · simp [hd]
  · cases b with
    | true => simp [hd, h]
    | false => simp [hd, h, hw, hc]

theorem lock_pass_failure {ts : Bool} {c : FiberId} {m : recursive_timed_mutex} {l : Nat}
    (hinv : data_invariant m) (h : lock ts c m = Checked.assert_failed l) :
    l = 70 ∧ c ∈ m.waiting_ := by
  by_cases hc : c ∈ m.waiting_
  · obtain ⟨b, m1, t, h1⟩ := lock_if_unlocked_total (c := c) hinv
    have hw := lock_if_unlocked_waiting h1
    cases b with
    | true => simp [lock, h1] at h
    | false =>
        simp [lock, h1, hw, hc] at h
        exact ⟨h.symm, hc⟩
  · obtain ⟨p, m1, t, h1⟩ := @lock_pass_total ts c m hinv hc
    rw [h1] at h
    cases h

theorem try_lock_until_pass_failure {ts : Bool} {c : FiberId} {d now : Int}
    {m : recursive_timed_mutex} {l : Nat}
    (hinv : data_invariant m) (h : try_lock_until ts c d now m = Checked.assert_failed l) :
    l = 119 ∧ c ∈ m.waiting_ := by
  by_cases hc : c ∈ m.waiting_
  · obtain ⟨b, m1, t, h1⟩ := lock_if_unlocked_total (c := c) hinv
    have hw := lock_if_unlocked_waiting h1
    unfold try_lock_until at h
    by_cases hd : now > d
    · simp [hd] at h
    · cases b with
      | true => simp [hd, h1] at h
      | false =>
          simp [hd, h1, hw, hc] at h
          exact ⟨h.symm, hc⟩
  · obtain ⟨p, m1, t, h1⟩ := @try_lock_until_pass_total ts c d now m hinv hc
    rw [h1] at h
    cases h

theorem lock_builds (c : FiberId) (m : recursive_timed_mutex) :
    (lock true c m).map (fun r => (r.1, r.2.1, strip_guard r.2.2)) = lock false c m := by
  unfold lock lock_if_unlocked_
  by_cases hc : c ∈ m.waiting_ <;>
    split_ifs <;> simp [Checked.map, guard, strip_guard, hc]

theorem try_lock_builds (c : FiberId) (m : recursive_timed_mutex) :
    (try_lock true c m).map (fun r => (r.1, r.2.1, strip_guard r.2.2)) = try_lock false c m := by
  unfold try_lock lock_if_unlocked_
  split_ifs <;> simp [Checked.map, guard, strip_guard]

theorem try_lock_until_builds (c : FiberId) (d now : Int) (m : recursive_timed_mutex) :
    (try_lock_until true c d now m).map (fun r => (r.1, r.2.1, strip_guard r.2.2))
      = try_lock_until false c d now m := by
  unfold try_lock_until lock_if_unlocked_
  by_cases hc : c ∈ m.waiting_ <;>
    split_ifs <;> simp [Checked.map, guard, strip_guard, hc]

theorem timed_out_builds (c : FiberId) (m : recursive_timed_mutex) :
    ((try_lock_until_timed_out true c m).1, (try_lock_until_timed_out true c m).2.1,
        strip_guard (try_lock_until_timed_out true c m).2.2)
      = try_lock_until_timed_out false c m := by
  unfold try_lock_until_timed_out
  split_ifs <;> simp [guard, strip_guard]

theorem unlock_builds (c : FiberId) (m : recursive_timed_mutex) :
    (unlock true c m).map (fun r => (r.1, strip_guard r.2)) = unlock false c m := by
  unfold unlock
  by_cases hs : mutex_status.locked = m.state_
  · by_cases ho : some c = m.owner_
    · by_cases h0 : 0 = m.count_ - 1
      · cases hq : m.waiting_ <;> simp [hs, ho, h0, hq, Checked.map, guard, strip_guard]
      · simp [hs, ho, h0, Checked.map, guard, strip_guard]
    · simp [hs, ho, Checked.map]
  · simp [hs, Checked.map]

theorem marked_runnable_strip_guard (t : List Event) :
    marked_runnable (strip_guard t) = marked_runnable t := by
  induction t with
  | nil => rfl
  | cons e t ih => cases e <;> simp [strip_guard, marked_runnable, ih]

theorem strip_guard_free (t : List Event) :
    Event.acquire_guard ∉ strip_guard t ∧ Event.release_guard ∉ strip_guard t := by
  induction t with
  | nil => simp [strip_guard]
  | cons e t ih => cases e <;> simp [strip_guard, ih]

theorem after_pass_strip (s : Sys) (c : FiberId) (o : Option Int)
    (r : Checked (Pass × recursive_timed_mutex × List Event)) :
    s.after_pass c o (r.map (fun r => (r.1, r.2.1, strip_guard r.2.2))) = s.after_pass c o r := by
  cases r with
  | ok a => obtain ⟨p, m1, t⟩ := a; rfl
  | assert_failed l => rfl

theorem step_builds (s : Sys) (a : Action) : s.step true a = s.step false a := by
  cases a with
  | lock c =>
      simp only [Sys.step]
      rw [← lock_builds, after_pass_strip]
  | try_lock c =>
      simp only [Sys.step]
      rw [← try_lock_builds]
      cases try_lock true c s.mtx with
      | ok r => obtain ⟨b, m1, t⟩ := r; rfl
      | assert_failed l => rfl
  | try_lock_until c d =>
      simp only [Sys.step]
      rw [← try_lock_until_builds, after_pass_strip]
  | unlock c =>
      simp only [Sys.step]
      rw [← unlock_builds]
      cases unlock true c s.mtx with
      | ok r =>
          obtain ⟨m1, t⟩ := r
          simp [Checked.map, marked_runnable_strip_guard]
      | assert_failed l => rfl
  | wake c =>
      simp only [Sys.step]
      cases s.pc c with
      | running => rfl
      | in_lock =>
          simp only []
          rw [← lock_builds, after_pass_strip]
      | in_try_lock_until d =>
          simp only []
          rw [← try_lock_until_builds, after_pass_strip]
  | timeout c =>
      simp only [Sys.step]
      rw [← timed_out_builds]
  | tick t => rfl

theorem exec_builds (spurious : Bool) (as : List Action) :
    ∀ s : Sys, Sys.exec spurious true s as = Sys.exec spurious false s as := by
  induction as with
  | nil => intro s; rfl
  | cons a as ih =>
      intro s
      simp only [Sys.exec, step_builds s a]
      split_ifs
      · cases s.step false a with
        | ok s1 => exact ih s1
        | assert_failed l => rfl
      · rfl

/-- What a pass of a blocking loop does to the queue. -/
theorem pass_queue {ts : Bool} {c : FiberId} {o : Option Int} {now : Int}
    {m m1 : recursive_timed_mutex} {p : Pass} {t : List Event}
    (h : (match o with
          | none => lock ts c m
          | some d => try_lock_until ts c d now m) = Checked.ok (p, m1, t)) :
    (p = Pass.suspended ∧ m1.waiting_ = m.waiting_ ++ [c]) ∨
    ((∃ b, p = Pass.returned b) ∧ m1.waiting_ = m.waiting_) := by
  cases o with
  | none =>
      rcases lock_pass_cases h with ⟨rfl, t0, h0⟩ | ⟨rfl, -, rfl, -⟩
      · exact Or.inr ⟨⟨_, rfl⟩, lock_if_unlocked_waiting h0⟩
      · exact Or.inl ⟨rfl, rfl⟩
  | some d =>
      rcases try_lock_until_pass_cases h with ⟨rfl, -, rfl⟩ | ⟨rfl, -, t0, h0⟩ | ⟨rfl, -, -, rfl, -⟩
      · exact Or.inr ⟨⟨_, rfl⟩, rfl⟩
      · exact Or.inr ⟨⟨_, rfl⟩, lock_if_unlocked_waiting h0⟩
      · exact Or.inl ⟨rfl, rfl⟩

theorem queue_inv_pass {ts : Bool} {c : FiberId} {o : Option Int} {s s1 : Sys}
    (hinv : queue_inv s)
    (h : s.after_pass c o (match o with
          | none => lock ts c s.mtx
          | some d => try_lock_until ts c d s.clock s.mtx) = Checked.ok s1)
    (hcq : c ∉ s.mtx.waiting_) : queue_inv s1 := by
  obtain ⟨hnd, hsus, hrdy⟩ := hinv
  obtain ⟨p, m1, t, hr, hm, -, -, hpc, hrd⟩ := after_pass_ok h
  have hready : ∀ f, s1.ready f = true → f ≠ c ∧ s.ready f = true := by
    intro f hf
    rw [hrd] at hf
    by_cases hfc : f = c
    · subst hfc; simp at hf
    · exact ⟨hfc, by simpa [Function.update_noteq hfc] using hf⟩
  rcases pass_queue hr with ⟨rfl, hw⟩ | ⟨⟨b, rfl⟩, hw⟩
  · refine ⟨?_, ?_, ?_⟩
    · rw [hm, hw]
      exact List.Nodup.append hnd (List.nodup_singleton c) (by simpa using hcq)
    · intro f hf
      rw [hm, hw] at hf
      rw [hpc]
      by_cases hfc : f = c
      · subst hfc
        cases o <;> simp [pass_pc, waiting_pc]
      · simp only [Function.update_noteq hfc]
        simp only [List.mem_append, List.mem_singleton] at hf
        rcases hf with hf | hf
        · exact hsus f hf
        · exact absurd hf hfc
    · intro f hf
      obtain ⟨hfc, hf0⟩ := hready f hf
      rw [hm, hw]
      simp only [List.mem_append, List.mem_singleton, not_or]
      exact ⟨hrdy f hf0, hfc⟩
  · refine ⟨by rw [hm, hw]; exact hnd, ?_, ?_⟩
    · intro f hf
      rw [hm, hw] at hf
      have hfc : f ≠ c := fun e => hcq (e ▸ hf)
      rw [hpc]
      simp only [Function.update_noteq hfc]
      exact hsus f hf
    · intro f hf
      rw [hm, hw]
      exact hrdy f (hready f hf).2

theorem queue_inv_step {ts : Bool} {s s1 : Sys} {a : Action}
    (hinv : queue_inv s) (hen : s.enabled false a = true)
    (h : s.step ts a = Checked.ok s1) : queue_inv s1 := by
  cases a with
  | lock c =>
      simp only [Sys.step] at h
      simp [Sys.enabled] at hen
      exact queue_inv_pass (o := none) hinv h (fun hc => hinv.2.1 c hc hen)
  | try_lock_until c d =>
      simp only [Sys.step] at h
      simp [Sys.enabled] at hen
      exact queue_inv_pass (o := some d) hinv h (fun hc => hinv.2.1 c hc hen)
  | try_lock c =>
      simp only [Sys.step] at h
      cases hr : try_lock ts c s.mtx with
      | assert_failed l => simp [hr] at h
      | ok r =>
          obtain ⟨b, m1, t⟩ := r
          obtain ⟨t0, h0⟩ := try_lock_cases hr
          have hw := lock_if_unlocked_waiting h0
          simp [hr] at h
          subst h
          obtain ⟨hnd, hsus, hrdy⟩ := hinv
          exact ⟨by simpa [hw] using hnd, by simpa [hw] using hsus, by simpa [hw] using hrdy⟩
  | unlock c =>
      simp only [Sys.step] at h
      cases hr : unlock ts c s.mtx with
      | assert_failed l => simp [hr] at h
      | ok r =>
          obtain ⟨m1, t⟩ := r
          simp [hr] at h
          subst h
          obtain ⟨-, hcase⟩ := unlock_marks hr
          obtain ⟨hnd, hsus, hrdy⟩ := hinv
          rcases hcase with ⟨hm0, hw⟩ | ⟨f, hmf, hw, -⟩
          · refine ⟨by simpa [hw] using hnd, by simpa [hw] using hsus, ?_⟩
            simpa [hm0, mark_all, hw] using hrdy
          · rw [hw] at hnd hsus hrdy
            refine ⟨(List.nodup_cons.mp hnd).2,
              fun g hg => hsus g (List.mem_cons_of_mem _ hg), ?_⟩
            intro g hg
            simp only [hmf, mark_all] at hg
            by_cases hgf : g = f
            · subst hgf
              exact (List.nodup_cons.mp hnd).1
            · simp only [Function.update_noteq hgf] at hg
              exact fun hmem => hrdy g hg (List.mem_cons_of_mem _ hmem)
  | wake c =>
      simp only [Sys.step] at h
      simp only [Sys.enabled, Bool.or_false, Bool.and_eq_true, decide_eq_true_eq] at hen
      cases hpc : s.pc c with
      | running => exact absurd hpc hen.1
      | in_lock =>
          simp only [hpc] at h
          exact queue_inv_pass (o := none) hinv h (hinv.2.2 c hen.2)
      | in_try_lock_until d =>
          simp only [hpc] at h
          exact queue_inv_pass (o := some d) hinv h (hinv.2.2 c hen.2)
  | timeout c =>
      simp only [Sys.step] at h
      cases hpc : s.pc c with
      | running => simp [hpc] at h; subst h; exact hinv
      | in_lock => simp [hpc] at h; subst h; exact hinv
      | in_try_lock_until d =>
          simp [hpc] at h
          subst h
          obtain ⟨hnd, hsus, hrdy⟩ := hinv
          have hw : (try_lock_until_timed_out ts c s.mtx).2.1.waiting_
              = s.mtx.waiting_.erase c := by
            unfold try_lock_until_timed_out
            split_ifs with hc
            · rfl
            · simp [List.erase_of_not_mem hc]
          refine ⟨?_, ?_, ?_⟩
          · simp only [hw]
            exact hnd.erase c
          · intro f hf
            simp only [hw] at hf
            have hfc : f ≠ c := fun e => by
              subst e
              exact (List.Nodup.not_mem_erase hnd) hf
            simp only [Function.update_noteq hfc]
            exact hsus f (List.mem_of_mem_erase hf)
          · intro f hf
            simp only [hw]
            by_cases hfc : f = c
            · subst hfc; simp at hf
            · simp only [Function.update_noteq hfc] at hf
              exact fun hmem => hrdy f hf (List.mem_of_mem_erase hmem)
  | tick t =>
      simp [Sys.step] at h
      subst h
      exact hinv

theorem queue_inv_exec {ts : Bool} (as : List Action) :
    ∀ s s1 : Sys, Sys.exec false ts s as = some s1 → queue_inv s → queue_inv s1 := by
  induction as with
  | nil =>
      intro s s1 h hinv
      simp [Sys.exec] at h
      subst h
      exact hinv
  | cons a as ih =>
      intro s s1 h hinv
      simp only [Sys.exec] at h
      split_ifs at h with hen
      cases hst : s.step ts a with
      | assert_failed l => simp [hst] at h
      | ok s2 =>
          simp only [hst] at h
          exact ih s2 s1 h (queue_inv_step hinv hen hst)

theorem queue_inv_init : queue_inv Sys.init := by
  simp [queue_inv, Sys.init, make]

theorem after_pass_failure {s : Sys} {c : FiberId} {o : Option Int}
    {r : Checked (Pass × recursive_timed_mutex × List Event)} {l : Nat}
    (h : s.after_pass c o r = Checked.assert_failed l) : r = Checked.assert_failed l := by
  cases r with
  | ok a => obtain ⟨p, m1, t⟩ := a; simp [Sys.after_pass] at h
  | assert_failed l1 => simpa [Sys.after_pass] using h

/-- With the data invariant and the queue invariant, the only checks that an enabled step
can fail are the precondition checks of `unlock`. -/
theorem step_failure {ts : Bool} {s : Sys} {a : Action} {l : Nat}
    (hd : data_invariant s.mtx) (hinv : queue_inv s) (hen : s.enabled false a = true)
    (h : s.step ts a = Checked.assert_failed l) :
    (∃ c, a = Action.unlock c) ∧ (l = 150 ∨ l = 151) := by
  cases a with
  | lock c =>
      simp only [Sys.step] at h
      simp [Sys.enabled] at hen
      have := (lock_pass_failure hd (after_pass_failure h)).2
      exact absurd hen (hinv.2.1 c this)
  | try_lock_until c d =>
      simp only [Sys.step] at h
      simp [Sys.enabled] at hen
      have := (try_lock_until_pass_failure hd (after_pass_failure h)).2
      exact absurd hen (hinv.2.1 c this)
  | try_lock c =>
      simp only [Sys.step] at h
      obtain ⟨b, m1, t, h0⟩ := lock_if_unlocked_total (c := c) hd
      cases b <;> simp [try_lock, h0] at h
  | unlock c =>
      refine ⟨⟨c, rfl⟩, ?_⟩
      simp only [Sys.step] at h
      cases hr : unlock ts c s.mtx with
      | ok r => simp [hr] at h
      | assert_failed l1 =>
          simp [hr] at h
          subst h
          unfold unlock at hr
          by_cases hs : mutex_status.locked = s.mtx.state_
          · by_cases ho : some c = s.mtx.owner_
            · by_cases h0 : 0 = s.mtx.count_ - 1
              · cases hq : s.mtx.waiting_ <;> simp [hs, ho, h0, hq] at hr
              · simp [hs, ho, h0] at hr
            · simp [hs, ho] at hr
              exact Or.inr hr.symm
          · simp [hs] at hr
            exact Or.inl hr.symm
  | wake c =>
      simp only [Sys.step] at h
      simp only [Sys.enabled, Bool.or_false, Bool.and_eq_true, decide_eq_true_eq] at hen
      cases hpc : s.pc c with
      | running => exact absurd hpc hen.1
      | in_lock =>
          simp only [hpc] at h
          have := (lock_pass_failure hd (after_pass_failure h)).2
          exact absurd this (hinv.2.2 c hen.2)
      | in_try_lock_until d =>
          simp only [hpc] at h
          have := (try_lock_until_pass_failure hd (after_pass_failure h)).2
          exact absurd this (hinv.2.2 c hen.2)
  | timeout c =>
      simp only [Sys.step] at h
      cases hpc : s.pc c <;> simp [hpc] at h
  | tick t => simp [Sys.step] at h

/-- In the single-threaded build, where no fiber runs inside a step of `Sys`, and without
spurious wake-ups: in every state that the system reaches, the wait queue holds no fiber
twice and no running fiber, and the only checks that an enabled step can fail are the two
precondition checks of `unlock` (lines 150 and 151). -/
theorem queue_inv_single_threaded (s : Sys) (h : Reachable false false s) :
    s.mtx.waiting_.Nodup ∧ (∀ f ∈ s.mtx.waiting_, s.pc f ≠ Pc.running) ∧
    (∀ (a : Action) (l : Nat), s.enabled false a = true →
      s.step false a = Checked.assert_failed l →
      (∃ c, a = Action.unlock c) ∧ (l = 150 ∨ l = 151)) := by
  obtain ⟨as, hex⟩ := h
  have hq := queue_inv_exec as _ _ hex queue_inv_init
  have hd := (core_inv_exec as _ _ hex core_inv_init).1
  exact ⟨hq.1, hq.2.1, fun a l hen hf => step_failure hd hq hen hf⟩

/-! ## The claims, continued -/

/-- Claim C11 (the fast path may overtake waiters). On an unlocked mutex (no owner and count
0, as the data invariant has it) with any wait queue, and for every calling fiber `c`:
`try_lock`, the first pass of `lock` and the first pass of `try_lock_until` with a
deadline that the clock has not passed all return success at once, with `c` as owner,
count 1 and the wait queue exactly as it was (no yield, no suspension, no write of the
queue), whoever is queued. And the decision of `lock_if_unlocked_` does not depend on the
queue: with another queue in place of the one of `m` it gives the same answer, the same
steps and the same mutex but for the queue. -/
theorem fast_path_overtakes (ts : Bool) (c : FiberId) (m : recursive_timed_mutex)
    (d now : Int) (hs : m.state_ = mutex_status.unlocked) (hinv : data_invariant m)
    (hd : now ≤ d) :
    (∃ t, try_lock ts c m
        = Checked.ok (true, ⟨mutex_status.locked, some c, 1, m.waiting_⟩, t) ∧
      Event.yield ∉ t ∧ Event.suspend ∉ t) ∧
    (∃ t, lock ts c m
        = Checked.ok (Pass.returned true, ⟨mutex_status.locked, some c, 1, m.waiting_⟩, t) ∧
      Event.suspend ∉ t ∧ Event.write Field.waiting_ ∉ t) ∧
    (∃ t, try_lock_until ts c d now m
        = Checked.ok (Pass.returned true, ⟨mutex_status.locked, some c, 1, m.waiting_⟩, t) ∧
      (∀ x, Event.suspend_until x ∉ t) ∧ Event.write Field.waiting_ ∉ t) ∧
    (∀ q : List FiberId,
      match lock_if_unlocked_ c m, lock_if_unlocked_ c { m with waiting_ := q } with
      | Checked.ok (b, m1, t), Checked.ok (b2, m2, t2) =>
          b = b2 ∧ m2 = { m1 with waiting_ := q } ∧ t = t2
      | Checked.assert_failed l, Checked.assert_failed l2 => l = l2
      | _, _ => False) := by
  obtain ⟨ho, hc⟩ := hinv.2 hs
  have hnd : ¬ (d < now) := by omega
  refine ⟨?_, ?_, ?_, ?_⟩
  · cases ts <;> simp [try_lock, lock_if_unlocked_, hs, ho, hc, guard]
  · cases ts <;> simp [lock, lock_if_unlocked_, hs, ho, hc, guard]
  · cases ts <;> simp [try_lock_until, lock_if_unlocked_, hs, ho, hc, guard, hnd]
  · intro q
    simp [lock_if_unlocked_, hs, ho]

theorem fast_path_overtakes_witness :
    (∃ t, try_lock true 9 ⟨mutex_status.unlocked, none, 0, [2, 3]⟩
        = Checked.ok (true, ⟨mutex_status.locked, some 9, 1, [2, 3]⟩, t)) ∧
    (∃ t, lock true 9 ⟨mutex_status.unlocked, none, 0, [2, 3]⟩
        = Checked.ok (Pass.returned true, ⟨mutex_status.locked, some 9, 1, [2, 3]⟩, t)) ∧
    (∃ t, try_lock_until true 9 10 10 ⟨mutex_status.unlocked, none, 0, [2, 3]⟩
        = Checked.ok (Pass.returned true, ⟨mutex_status.locked, some 9, 1, [2, 3]⟩, t)) := by
  obtain ⟨⟨t1, h1, -⟩, ⟨t2, h2, -⟩, ⟨t3, h3, -⟩, -⟩ :=
    fast_path_overtakes true 9 ⟨mutex_status.unlocked, none, 0, [2, 3]⟩ 10 10 rfl
      (by simp [data_invariant]) (by decide)
  exact ⟨⟨t1, h1⟩, ⟨t2, h2⟩, ⟨t3, h3⟩⟩

/-- Claim C12 (data invariant). The data invariant (locked: the owner is a fiber and the
count is at least 1; unlocked: no owner and count 0) holds for the constructed mutex.
Under it: `lock_if_unlocked_` passes its assertion of line 28 and returns with the
invariant; a pass of `lock` or of `try_lock_until` that returns or suspends keeps it, and
the only assertion it can fail is the enqueue check (line 70, line 119); `try_lock`
returns with the invariant; the timed-out cleanup keeps it; `unlock` called under its
precondition (locked, caller is the owner) returns with the invariant. It therefore holds
in every state that the system of fibers reaches. -/
theorem data_invariant_preserved :
    data_invariant make ∧
    (∀ (c : FiberId) (m : recursive_timed_mutex), data_invariant m →
      ∃ b m1 t, lock_if_unlocked_ c m = Checked.ok (b, m1, t) ∧ data_invariant m1) ∧
    (∀ (ts : Bool) (c : FiberId) (m : recursive_timed_mutex), data_invariant m →
      (∀ p m1 t, lock ts c m = Checked.ok (p, m1, t) → data_invariant m1) ∧
      (∀ l, lock ts c m = Checked.assert_failed l → l = 70)) ∧
    (∀ (ts : Bool) (c : FiberId) (m : recursive_timed_mutex), data_invariant m →
      ∃ b m1 t, try_lock ts c m = Checked.ok (b, m1, t) ∧ data_invariant m1) ∧
    (∀ (ts : Bool) (c : FiberId) (d now : Int) (m : recursive_timed_mutex),
      data_invariant m →
      (∀ p m1 t, try_lock_until ts c d now m = Checked.ok (p, m1, t) → data_invariant m1) ∧
      (∀ l, try_lock_until ts c d now m = Checked.assert_failed l → l = 119) ∧
      data_invariant (try_lock_until_timed_out ts c m).2.1) ∧
    (∀ (ts : Bool) (c : FiberId) (m : recursive_timed_mutex), data_invariant m →
      m.state_ = mutex_status.locked → m.owner_ = some c →
      ∃ m1 t, unlock ts c m = Checked.ok (m1, t) ∧ data_invariant m1) ∧
    (∀ (spurious ts : Bool) (s : Sys), Reachable spurious ts s → data_invariant s.mtx) := by
  refine ⟨by simp [data_invariant, make], ?_, ?_, ?_, ?_, ?_, ?_⟩
  · intro c m hinv
    obtain ⟨b, m1, t, h⟩ := lock_if_unlocked_total (c := c) hinv
    exact ⟨b, m1, t, h, (lock_if_unlocked_effect h hinv).1⟩
  · intro ts c m hinv
    refine ⟨fun p m1 t h => ?_, fun l h => (lock_pass_failure hinv h).1⟩
    rcases lock_pass_cases h with ⟨-, t0, h0⟩ | ⟨-, -, rfl, -⟩
    · exact (lock_if_unlocked_effect h0 hinv).1
    · exact hinv
  · intro ts c m hinv
    obtain ⟨b, m1, t, h⟩ := lock_if_unlocked_total (c := c) hinv
    refine ⟨b, m1, ?_⟩
    cases b <;> simp [try_lock, h, (lock_if_unlocked_effect h hinv).1]
  · intro ts c d now m hinv
    refine ⟨fun p m1 t h => ?_, fun l h => (try_lock_until_pass_failure hinv h).1, ?_⟩
    · rcases try_lock_until_pass_cases h with ⟨-, -, rfl⟩ | ⟨-, -, t0, h0⟩ | ⟨-, -, -, rfl, -⟩
      · exact hinv
      · exact (lock_if_unlocked_effect h0 hinv).1
      · exact hinv
    · unfold try_lock_until_timed_out
      split_ifs
      · exact hinv
      · exact hinv
  · intro ts c m hinv hs ho
    have hex : ∃ r, unlock ts c m = Checked.ok r := by
      unfold unlock
      by_cases h0 : 0 = m.count_ - 1
      · cases hq : m.waiting_ <;> simp [hs, ho, h0, hq]
      · simp [hs, ho, h0]
    obtain ⟨⟨m1, t⟩, h⟩ := hex
    exact ⟨m1, t, h, (unlock_effect h hinv).2.1⟩
  · intro spurious ts s hr
    obtain ⟨as, hex⟩ := hr
    exact (core_inv_exec as _ _ hex core_inv_init).1

theorem data_invariant_preserved_witness :
    ∃ m1 t, unlock true 4 ⟨mutex_status.locked, some 4, 1, [6]⟩ = Checked.ok (m1, t) ∧
      data_invariant m1 :=
  data_invariant_preserved.2.2.2.2.2.1 true 4 ⟨mutex_status.locked, some 4, 1, [6]⟩
    (by simp [data_invariant]) rfl rfl

/-- Claim C13, the code at the failing input (thread-safe build, no spurious wake-up).
Fiber 1 holds the mutex and fiber 2 waits in `try_lock_until(100)`. At clock 100 fiber 1
goes through `unlock` up to the release of the guard (line 166): fiber 2 is popped from
the queue and the mutex is free, and `set_ready` on fiber 2 (line 170) is still to come.
Before it comes, the `wait_until` of fiber 2 times out and the call returns `false`, fiber
4 takes the free mutex, and fiber 2 calls `lock()`, is queued and suspended. Then fiber 1
calls `set_ready` on fiber 2. Fiber 2 is now suspended in `lock()`, marked runnable by
`unlock`, and in the queue; the scheduler may resume it, and the resumed pass of `lock()`
fails the enqueue check of line 70. -/
theorem late_set_ready_run :
    (Threads.exec Threads.init
        [Move.act (Action.lock 1), Move.act (Action.try_lock_until 2 100),
         Move.act (Action.tick 100), Move.unlock_guarded 1]).map
        (fun x => (x.sys.mtx, x.sys.pc 2, x.sys.ready 2, x.late))
      = some (⟨mutex_status.unlocked, none, 0, []⟩, Pc.in_try_lock_until 100, false,
          [(1, 2)]) ∧
    (Threads.exec Threads.init
        [Move.act (Action.lock 1), Move.act (Action.try_lock_until 2 100),
         Move.act (Action.tick 100), Move.unlock_guarded 1, Move.act (Action.timeout 2),
         Move.act (Action.lock 4), Move.act (Action.lock 2), Move.unlock_set_ready 1]).map
        (fun x => (x.sys.mtx, x.sys.pc 2, x.sys.ready 2,
          x.enabled (Move.act (Action.wake 2)),
          (x.step (Move.act (Action.wake 2))).map (fun _ => ())))
      = some (⟨mutex_status.locked, some 4, 1, [2]⟩, Pc.in_lock, true, true,
          Checked.assert_failed 70) := by
  refine ⟨?_, ?_⟩ <;> decide

/-- Claim C14, the code at the failing input. Fiber 1 holds the mutex and fiber 2 is queued
and suspended in `lock()`. When fiber 2 is resumed though no `unlock` dequeued it, the pass
of `lock()` finds the mutex held by fiber 1 and fails the enqueue check of line 70, because
fiber 2 is still in the queue: in both builds, and as a step of the system with spurious
wake-ups. -/
theorem spurious_wakeup_run :
    lock true 2 ⟨mutex_status.locked, some 1, 1, [2]⟩ = Checked.assert_failed 70 ∧
    lock false 2 ⟨mutex_status.locked, some 1, 1, [2]⟩ = Checked.assert_failed 70 ∧
    (Sys.exec true true Sys.init [Action.lock 1, Action.lock 2]).map
        (fun s => (s.mtx, s.pc 2, s.ready 2, s.enabled true (Action.wake 2),
          (s.step true (Action.wake 2)).map (fun _ => ())))
      = some (⟨mutex_status.locked, some 1, 1, [2]⟩, Pc.in_lock, false, true,
          Checked.assert_failed 70) := by
  refine ⟨?_, ?_, ?_⟩ <;> decide

/-- Claim C15, counterexample. In the thread-safe build the trace of `unlock` begins with
the reads of `state_` and `owner_` made by the precondition checks of lines 150 and 151,
and only then takes the guard: the guard discipline fails on it. -/
theorem guard_discipline_counterexample :
    (unlock true 1 ⟨mutex_status.locked, some 1, 1, [2]⟩).map
        (fun r => (r.2.take 3, disciplined false r.2))
      = Checked.ok ([Event.read Field.state_, Event.read Field.owner_, Event.acquire_guard],
          false) := by
  decide

/-- Claim C15, amended (guard discipline in the thread-safe build). In a pass of `lock`, in
`try_lock`, in a pass of `try_lock_until` and in its timed-out cleanup, every read and
every write of `state_`, `owner_`, `count_` and `waiting_` happens with the guard held,
the yield of `try_lock` happens with the guard not held, and the guard is not held when
the call returns or the fiber is suspended. In `unlock` the trace is the two reads of
`state_` and `owner_` of the precondition checks, then the acquisition of the guard, then
a rest in which every access is under the guard; the guard is not held at the end. -/
theorem guard_discipline :
    (∀ (c : FiberId) (m m1 : recursive_timed_mutex) (p : Pass) (t : List Event),
      lock true c m = Checked.ok (p, m1, t) →
      disciplined false t = true ∧ guard_held false t = false) ∧
    (∀ (c : FiberId) (m m1 : recursive_timed_mutex) (b : Bool) (t : List Event),
      try_lock true c m = Checked.ok (b, m1, t) →
      disciplined false t = true ∧ guard_held false t = false) ∧
    (∀ (c : FiberId) (d now : Int) (m m1 : recursive_timed_mutex) (p : Pass) (t : List Event),
      try_lock_until true c d now m = Checked.ok (p, m1, t) →
      disciplined false t = true ∧ guard_held false t = false) ∧
    (∀ (c : FiberId) (m : recursive_timed_mutex),
      disciplined false (try_lock_until_timed_out true c m).2.2 = true ∧
      guard_held false (try_lock_until_timed_out true c m).2.2 = false) ∧
    (∀ (c : FiberId) (m m1 : recursive_timed_mutex) (t : List Event),
      unlock true c m = Checked.ok (m1, t) →
      ∃ t1, t = Event.read Field.state_ :: Event.read Field.owner_ :: Event.acquire_guard :: t1 ∧
        disciplined true t1 = true ∧ guard_held false t = false ∧
        disciplined false t = false) := by
  refine ⟨?_, ?_, ?_, ?_, ?_⟩
  · intro c m m1 p t h
    unfold lock lock_if_unlocked_ at h
    by_cases hc : c ∈ m.waiting_ <;>
      split_ifs at h <;> simp [guard, hc] at h <;> obtain ⟨-, -, rfl⟩ := h <;>
      simp [disciplined, guard_held]
  · intro c m m1 b t h
    unfold try_lock lock_if_unlocked_ at h
    split_ifs at h <;> simp [guard] at h <;> obtain ⟨-, -, rfl⟩ := h <;>
      simp [disciplined, guard_held]
  · intro c d now m m1 p t h
    unfold try_lock_until lock_if_unlocked_ at h
    by_cases hc : c ∈ m.waiting_ <;>
      split_ifs at h <;> simp [guard, hc] at h <;> obtain ⟨-, -, rfl⟩ := h <;>
      simp [disciplined, guard_held]
  · intro c m
    unfold try_lock_until_timed_out
    split_ifs <;> simp [guard, disciplined, guard_held]
  · intro c m m1 t h
    unfold unlock at h
    by_cases hs : mutex_status.locked = m.state_
    · by_cases ho : some c = m.owner_
      · by_cases h0 : 0 = m.count_ - 1
        · cases hq : m.waiting_ <;> simp [hs, ho, h0, hq, guard] at h <;>
            obtain ⟨-, rfl⟩ := h <;> simp [disciplined, guard_held]
        · simp [hs, ho, h0, guard] at h
          obtain ⟨-, rfl⟩ := h
          simp [disciplined, guard_held]
      · simp [hs, ho] at h
    · simp [hs] at h

theorem guard_discipline_witness :
    disciplined false
        [Event.acquire_guard, Event.read Field.state_, Event.read Field.owner_,
         Event.read Field.waiting_, Event.write Field.waiting_, Event.suspend] = true ∧
    guard_held false
        [Event.acquire_guard, Event.read Field.state_, Event.read Field.owner_,
         Event.read Field.waiting_, Event.write Field.waiting_, Event.suspend] = false :=
  guard_discipline.1 2 ⟨mutex_status.locked, some 1, 1, []⟩
    ⟨mutex_status.locked, some 1, 1, [2]⟩ Pass.suspended _ (by decide)

/-- Claim C16 (the two builds agree). For every caller, mutex state, deadline and clock
reading, a pass of `lock`, `try_lock`, a pass of `try_lock_until`, its timed-out cleanup
and `unlock` give in the thread-safe build and in the single-threaded build the same
outcome (the same failing assertion, or the same return value and the same mutex), and
the trace of the single-threaded build is the trace of the thread-safe build without its
steps on the guard; removing those steps keeps the fibers marked runnable and leaves no
step on the guard. So every schedule of calls and scheduler outcomes (woken, timed out)
leads to the same state of the system in both builds. -/
theorem build_modes_agree :
    (∀ (c : FiberId) (m : recursive_timed_mutex),
      (lock true c m).map (fun r => (r.1, r.2.1, strip_guard r.2.2)) = lock false c m) ∧
    (∀ (c : FiberId) (m : recursive_timed_mutex),
      (try_lock true c m).map (fun r => (r.1, r.2.1, strip_guard r.2.2))
        = try_lock false c m) ∧
    (∀ (c : FiberId) (d now : Int) (m : recursive_timed_mutex),
      (try_lock_until true c d now m).map (fun r => (r.1, r.2.1, strip_guard r.2.2))
        = try_lock_until false c d now m) ∧
    (∀ (c : FiberId) (m : recursive_timed_mutex),
      ((try_lock_until_timed_out true c m).1, (try_lock_until_timed_out true c m).2.1,
          strip_guard (try_lock_until_timed_out true c m).2.2)
        = try_lock_until_timed_out false c m) ∧
    (∀ (c : FiberId) (m : recursive_timed_mutex),
      (unlock true c m).map (fun r => (r.1, strip_guard r.2)) = unlock false c m) ∧
    (∀ t : List Event, marked_runnable (strip_guard t) = marked_runnable t ∧
      Event.acquire_guard ∉ strip_guard t ∧ Event.release_guard ∉ strip_guard t) ∧
    (∀ (spurious : Bool) (s : Sys) (as : List Action),
      Sys.exec spurious true s as = Sys.exec spurious false s as) :=
  ⟨lock_builds, try_lock_builds, try_lock_until_builds, timed_out_builds, unlock_builds,
    fun t => ⟨marked_runnable_strip_guard t, strip_guard_free t⟩,
    fun spurious s as => exec_builds spurious as s⟩

/-- Claim C17 (lifecycle). The constructor gives an unlocked mutex without owner, with count
0 and an empty wait queue, which the destructor accepts. For a mutex that satisfies the
data invariant, the checks of the destructor all pass exactly when the mutex is unlocked,
the count is 0 and the wait queue is empty; a locked mutex fails the check of line 51 and
an unlocked one with queued fibers the check of line 53. -/
theorem lifecycle :
    make = ⟨mutex_status.unlocked, none, 0, []⟩ ∧
    destroy make = Checked.ok () ∧
    (∀ m : recursive_timed_mutex, data_invariant m →
      (destroy m = Checked.ok () ↔
        m.state_ = mutex_status.unlocked ∧ m.count_ = 0 ∧ m.waiting_ = [])) ∧
    (∀ m : recursive_timed_mutex, data_invariant m → m.state_ = mutex_status.locked →
      destroy m = Checked.assert_failed 51) ∧
    (∀ m : recursive_timed_mutex, data_invariant m → m.state_ = mutex_status.unlocked →
      m.waiting_ ≠ [] → destroy m = Checked.assert_failed 53) := by
  refine ⟨rfl, by simp [destroy, make], ?_, ?_, ?_⟩
  · intro m hinv
    obtain ⟨hl, hu⟩ := hinv
    unfold destroy
    cases hs : m.state_ with
    | locked =>
        have := (hl hs).1
        simp [this]
    | unlocked =>
        obtain ⟨ho, hc⟩ := hu hs
        cases hq : m.waiting_ <;> simp [ho, hc]
  · intro m hinv hs
    have := (hinv.1 hs).1
    simp [destroy, this]
  · intro m hinv hs hq
    obtain ⟨ho, hc⟩ := hinv.2 hs
    cases hw : m.waiting_ with
    | nil => exact absurd hw hq
    | cons f r => simp [destroy, ho, hc, hw]

theorem lifecycle_witness :
    destroy ⟨mutex_status.locked, some 1, 2, [3]⟩ = Checked.assert_failed 51 ∧
    destroy ⟨mutex_status.unlocked, none, 0, [3]⟩ = Checked.assert_failed 53 :=
  ⟨lifecycle.2.2.2.1 ⟨mutex_status.locked, some 1, 2, [3]⟩ (by simp [data_invariant]) rfl,
   lifecycle.2.2.2.2 ⟨mutex_status.unlocked, none, 0, [3]⟩ (by simp [data_invariant]) rfl
     (by simp)⟩

/-- Claim C18, the code at the failing input. Fiber 1 holds the mutex, fiber 2 waits in
`try_lock_until(100)` and fiber 3 in `lock()` behind it. Fiber 1 unlocks at clock 50,
which marks fiber 2 runnable. Fiber 2 is resumed at clock 101 as woken (first run), or at
clock 100 as timed out (second run), and returns `false` either way. The mutex is then
free, fiber 3 is queued and suspended, and the only fiber that `unlock` marked runnable
has returned: no wake-up is pending for fiber 3. -/
theorem stranded_waiter_run :
    (Sys.exec false true Sys.init
        [Action.lock 1, Action.try_lock_until 2 100, Action.lock 3, Action.tick 50,
         Action.unlock 1, Action.tick 101, Action.wake 2]).map
        (fun s => (s.mtx, s.pc 3, (marked_order s.hist).map (fun f => (f, s.ready f, s.pc f))))
      = some (⟨mutex_status.unlocked, none, 0, [3]⟩, Pc.in_lock, [(2, false, Pc.running)]) ∧
    (Sys.exec false true Sys.init
        [Action.lock 1, Action.try_lock_until 2 100, Action.lock 3, Action.tick 50,
         Action.unlock 1, Action.tick 100, Action.timeout 2]).map
        (fun s => (s.mtx, s.pc 3, (marked_order s.hist).map (fun f => (f, s.ready f, s.pc f))))
      = some (⟨mutex_status.unlocked, none, 0, [3]⟩, Pc.in_lock, [(2, false, Pc.running)]) ∧
    (∃ s, Sys.exec false true Sys.init
        [Action.lock 1, Action.try_lock_until 2 100, Action.lock 3, Action.tick 50,
         Action.unlock 1, Action.tick 101, Action.wake 2] = some s ∧
      ¬ no_stranded_waiter s) := by
  have h1 : (Sys.exec false true Sys.init
        [Action.lock 1, Action.try_lock_until 2 100, Action.lock 3, Action.tick 50,
         Action.unlock 1, Action.tick 101, Action.wake 2]).map
        (fun s => (s.mtx, s.pc 3, (marked_order s.hist).map (fun f => (f, s.ready f, s.pc f))))
      = some (⟨mutex_status.unlocked, none, 0, [3]⟩, Pc.in_lock, [(2, false, Pc.running)]) := by
    decide
  refine ⟨h1, by decide, ?_⟩
  have h : (Sys.exec false true Sys.init
        [Action.lock 1, Action.try_lock_until 2 100, Action.lock 3, Action.tick 50,
         Action.unlock 1, Action.tick 101, Action.wake 2]).isSome = true := by decide
  obtain ⟨s, hs⟩ := Option.isSome_iff_exists.mp h
  rw [hs] at h1
  simp only [Option.map_some', Option.some.injEq, Prod.mk.injEq] at h1
  obtain ⟨hm, -, hmk⟩ := h1
  refine ⟨s, hs, fun hno => ?_⟩
  obtain ⟨f, hf, hrdy, -⟩ := hno (by rw [hm]) (by rw [hm]; simp)
  have hmem : (f, s.ready f, s.pc f) ∈
      (marked_order s.hist).map (fun f => (f, s.ready f, s.pc f)) :=
    List.mem_map_of_mem _ hf
  rw [hmk] at hmem
  simp only [List.mem_singleton, Prod.mk.injEq] at hmem
  rw [hmem.2.1] at hrdy
  cases hrdy

end Fibers
